import Mathlib

/-!
Verification development for the mst06 MST string-table codec.

The C++ sources are shallowly embedded:
  - bytes and UTF-16 code units are natural numbers (machine arithmetic is
    made explicit with mod 2^32 where the source casts to uint32_t);
  - std::string and std::u16string values are lists of naturals;
  - std::unordered_map is an insertion-ordered association list whose
    insert operation keeps the existing binding, exactly like
    std::unordered_map::insert;
  - the external text transcoder (cpN_to_utf8, utf8_to_cpN, utf16_to_utf8),
    which the design document treats as a black-box collaborator, is
    modelled as the identity on byte sequences;
  - the host is taken to be little-endian, as in the reference builds, so
    cpu_to_be32 is a byte swap and cpu_to_le32 is the identity.
-/

set_option maxHeartbeats 1000000

namespace Mst06

/-! ### Small helpers shared by the embeddings -/

/-- C isxdigit on an ASCII byte. -/
def isxdigit (b : Nat) : Bool :=
  (48 ≤ b && b ≤ 57) || (65 ≤ b && b ≤ 70) || (97 ≤ b && b ≤ 102)

/-- Value of one hexadecimal digit, as strtoul computes it. -/
def hexval (b : Nat) : Nat :=
  if 48 ≤ b && b ≤ 57 then b - 48
  else if 65 ≤ b && b ≤ 70 then b - 55
  else if 97 ≤ b && b ≤ 102 then b - 87
  else 0

/-! ### Mst::escape and Mst::unescape (src/Mst.cpp lines 1016-1157)

Mst::escape walks the string once, appending a two-character escape for
backslash, newline and form feed and the character itself otherwise, while
tracking whether every character seen so far is a space.  The single loop
is rendered here as two folds over the same list: one building the output
and one computing the isSpaceOnly flag. -/

/-- Output produced for one input character by the switch in Mst::escape. -/
def escChar (b : Nat) : List Nat :=
  if b = 92 then [92, 92]
  else if b = 10 then [92, 110]
  else if b = 12 then [92, 102]
  else [b]

/-- One step of the isSpaceOnly bookkeeping in Mst::escape: the escape
branches set the flag to false, the default branch clears it unless the
character is a space. -/
def escSpaceStep (sp : Bool) (b : Nat) : Bool :=
  if b = 92 ∨ b = 10 ∨ b = 12 then false
  else sp && (b == 32)

/-- Mst::escape (UTF-8 overload): per-character escaping, then the
all-spaces fixup that rewrites the first space of a whitespace-only result
to the hex escape backslash-x-2-0. -/
def escape (s : List Nat) : List Nat :=
  let ret := s.foldl (fun acc b => acc ++ escChar b) []
  let isSpaceOnly := s.foldl escSpaceStep true
  if ret ≠ [] ∧ isSpaceOnly then [92, 120, 50, 48] ++ ret.drop 1 else ret

/-- Mst::unescape (UTF-8 overload).  The C++ iterates over str.c_str()
until the first NUL byte, so a 0 byte terminates processing even in the
middle of the list.  After a backslash: a terminating NUL keeps the lone
backslash; backslash, n and f decode to their characters; x followed by
two hex digits decodes to that byte, and with invalid digits both the
backslash and the x are skipped; any other character is passed through
together with the backslash. -/
def unescape : List Nat → List Nat
  | [] => []
  | 0 :: _ => []
  | [92] => [92]
  | 92 :: 0 :: _ => [92]
  | 92 :: 92 :: t => 92 :: unescape t
  | 92 :: 110 :: t => 10 :: unescape t
  | 92 :: 102 :: t => 12 :: unescape t
  | 92 :: 120 :: h1 :: h2 :: t2 =>
    if isxdigit h1 && isxdigit h2 then
      (hexval h1 * 16 + hexval h2) :: unescape t2
    else
      unescape (h1 :: h2 :: t2)
  | 92 :: 120 :: t => unescape t
  | 92 :: c :: t => 92 :: c :: unescape t
  | b :: t => b :: unescape t

/-! ### Byte-level readers used by the MST binary reader -/

/-- Byte of the buffer at a given index; reads past the end of the
captured region are modelled as 0. -/
def byteAt (bytes : List Nat) (i : Nat) : Nat := bytes.getD i 0

/-- Read a 32-bit value at a byte offset in the declared file endianness.
The C++ reads the struct field on the host and converts with
be32_to_cpu or le32_to_cpu; the composition reads exactly these bytes. -/
def readU32 (be : Bool) (bytes : List Nat) (off : Nat) : Nat :=
  if be then
    byteAt bytes off * 2 ^ 24 + byteAt bytes (off + 1) * 2 ^ 16 +
      byteAt bytes (off + 2) * 2 ^ 8 + byteAt bytes (off + 3)
  else
    byteAt bytes (off + 3) * 2 ^ 24 + byteAt bytes (off + 2) * 2 ^ 16 +
      byteAt bytes (off + 1) * 2 ^ 8 + byteAt bytes off

/-- NUL-terminated byte string at a position of the data buffer: strnlen
bounded by the end of the buffer, as in the load loops. -/
def readCStr (data : List Nat) (pos : Nat) : List Nat :=
  (data.drop pos).takeWhile (fun b => b != 0)

/-- Split a byte list into 16-bit units in the file endianness.  A
trailing lone byte corresponds to the C++ loop comparing the char16_t
pointer to the region end with strict less-than and then reading two
bytes, one of them past the region; that out-of-range byte is modelled
as 0. -/
def u16Units (be : Bool) : List Nat → List Nat
  | b0 :: b1 :: rest => (if be then b0 * 256 + b1 else b1 * 256 + b0) :: u16Units be rest
  | [b0] => [if be then b0 * 256 else b0]
  | [] => []

/-- UTF-16 string at a byte position: units until the zero terminator or
the end of the data region (src/Mst.cpp lines 244-261). -/
def readU16Str (be : Bool) (data : List Nat) (pos : Nat) : List Nat :=
  (u16Units be (data.drop pos)).takeWhile (fun u => u != 0)

/-! ### Association lists standing for the std::unordered_map members.
std::unordered_map::insert keeps the existing binding when the key is
already present, which is what assocInsertS and assocInsertN do. -/

def assocFindS (m : List (List Nat × Nat)) (k : List Nat) : Option Nat :=
  match m with
  | [] => none
  | p :: rest => if p.1 = k then some p.2 else assocFindS rest k

def assocInsertS (m : List (List Nat × Nat)) (k : List Nat) (v : Nat) :
    List (List Nat × Nat) :=
  match assocFindS m k with
  | some _ => m
  | none => m ++ [(k, v)]

def assocFindN (m : List (Nat × List Nat)) (k : Nat) : Option (List Nat) :=
  match m with
  | [] => none
  | p :: rest => if p.1 = k then some p.2 else assocFindN rest k

def assocInsertN (m : List (Nat × List Nat)) (k : Nat) (v : List Nat) :
    List (Nat × List Nat) :=
  match assocFindN m k with
  | some _ => m
  | none => m ++ [(k, v)]

/-! ### The Mst container state (class Mst, src/Mst.hpp) -/

/-- In-memory state of the Mst container: version and endianness flags,
table name, main string table (name and text per entry), name-to-index
lookup map and index-to-placeholder map. -/
structure Mst where
  version : Nat
  isBigEndian : Bool
  name : List Nat
  vStrTbl : List (List Nat × List Nat)
  vStrLkup : List (List Nat × Nat)
  mapPlaceholder : List (Nat × List Nat)
deriving Repr, DecidableEq

/-- State after the clearing block at the top of Mst::loadMST. -/
def clearedMst : Mst :=
  { version := 49, isBigEndian := true, name := [], vStrTbl := [],
    vStrLkup := [], mapPlaceholder := [] }

/-! ### Mst::loadMST (src/Mst.cpp lines 80-278) -/

/-- The four bytes of the BINA magic as stored on disk. -/
def BINA_SIG : List Nat := [66, 73, 78, 65]

/-- The four bytes at the magic location, file offset 0x18. -/
def magicBytes (bytes : List Nat) : List Nat :=
  [byteAt bytes 24, byteAt bytes 25, byteAt bytes 26, byteAt bytes 27]

/-- Endianness flag derived from the endianness byte at offset 0x17. -/
def declaredIsBE (bytes : List Nat) : Bool := byteAt bytes 23 == 66

/-- Header file_size field, converted per the declared endianness. -/
def declaredFileSize (bytes : List Nat) : Nat :=
  readU32 (declaredIsBE bytes) bytes 0

/-- Header doff_tbl_offset field. -/
def declaredDoffOff (bytes : List Nat) : Nat :=
  readU32 (declaredIsBE bytes) bytes 4

/-- Header doff_tbl_length field. -/
def declaredDoffLen (bytes : List Nat) : Nat :=
  readU32 (declaredIsBE bytes) bytes 8

/-- Container state after the magic, version and endianness checks have
passed: version and endianness are recorded before the size checks run. -/
def afterHeader (bytes : List Nat) : Mst :=
  { clearedMst with version := byteAt bytes 22, isBigEndian := declaredIsBE bytes }

/-- Container state after the table-name resolution step (src/Mst.cpp
lines 186-201): the name pointer is data + 32 + offset; if it is at or
past the end of the data the name is left empty and loading continues. -/
def withTableName (bytes : List Nat) : Mst :=
  let fs := declaredFileSize bytes
  let data := bytes.take fs
  let nameOff := readU32 (declaredIsBE bytes) data 36
  if fs ≤ 32 + nameOff then afterHeader bytes
  else { afterHeader bytes with name := readCStr data (32 + nameOff) }

/-- Number of iterations of the record loop: the record pointer starts at
data offset 44 (after the 32-byte header and 12-byte WTXT header) and is
advanced by 12 while it is before the end of the data region. -/
def numRecords (fileSize : Nat) : Nat := (fileSize - 44 + 11) / 12

/-- Record scan of Mst::loadMST (src/Mst.cpp lines 208-274).  The C++
iterates a record pointer; here the iteration space is the list of record
indices k with 44 + 12k below fileSize.  An out-of-range name, text or
placeholder pointer stops the scan and keeps the entries read so far;
otherwise the entry is appended, its name inserted into the lookup map
(keeping an existing binding), and a non-zero placeholder recorded. -/
def scanRecords (data : List Nat) (fileSize : Nat) (isBE : Bool) :
    List Nat → Mst → Mst
  | [], m => m
  | k :: rest, m =>
    let pos := 44 + 12 * k
    let nameOff := readU32 isBE data pos
    let textOff := readU32 isBE data (pos + 4)
    let placeholderOff := readU32 isBE data (pos + 8)
    if fileSize ≤ 32 + nameOff then m
    else if fileSize ≤ 32 + textOff then m
    else if placeholderOff ≠ 0 ∧ fileSize ≤ 32 + placeholderOff then m
    else
      let msgName := readCStr data (32 + nameOff)
      let msgText := readU16Str isBE data (32 + textOff)
      let m' : Mst :=
        { m with
          vStrTbl := m.vStrTbl ++ [(msgName, msgText)]
          vStrLkup := assocInsertS m.vStrLkup msgName k
          mapPlaceholder :=
            if placeholderOff ≠ 0 then
              assocInsertN m.mapPlaceholder k (readCStr data (32 + placeholderOff))
            else m.mapPlaceholder }
      scanRecords data fileSize isBE rest m'

/-- Mst::loadMST over the file contents.  Returns the POSIX-style status
and the container state after the call (the C++ mutates members in
place; failures after the header checks leave version and endianness
set).  A short read and all format violations return -EIO = -5. -/
def loadMST (bytes : List Nat) : Int × Mst :=
  if bytes.length < 32 then (-5, clearedMst)
  else if magicBytes bytes ≠ BINA_SIG then (-5, clearedMst)
  else if byteAt bytes 22 ≠ 49 ∨ (byteAt bytes 23 ≠ 66 ∧ byteAt bytes 23 ≠ 76) then
    (-5, clearedMst)
  else if declaredFileSize bytes < 56 then (-5, afterHeader bytes)
  else if 16777216 < declaredFileSize bytes then (-5, afterHeader bytes)
  else if declaredFileSize bytes < 32 + declaredDoffOff bytes + declaredDoffLen bytes then
    (-5, afterHeader bytes)
  else if bytes.length < declaredFileSize bytes then (-5, afterHeader bytes)
  else
    (0, scanRecords (bytes.take (declaredFileSize bytes)) (declaredFileSize bytes)
      (declaredIsBE bytes) (List.range (numRecords (declaredFileSize bytes)))
      (withTableName bytes))

/-! ### Accessors (src/Mst.hpp lines 146-151, src/Mst.cpp lines 960-1007) -/

/-- The black-box text transcoder from UTF-16 to UTF-8, modelled as the
identity on code-unit sequences. -/
def utf16_to_utf8 (s : List Nat) : List Nat := s

/-- Mst::strName: empty string for an out-of-range index. -/
def strName (m : Mst) (index : Nat) : List Nat :=
  if m.vStrTbl.length ≤ index then [] else (m.vStrTbl.getD index ([], [])).1

/-- Mst::strText_utf8 by index: empty string for an out-of-range index. -/
def strText_utf8 (m : Mst) (index : Nat) : List Nat :=
  if m.vStrTbl.length ≤ index then [] else utf16_to_utf8 (m.vStrTbl.getD index ([], [])).2

/-- Mst::strText_utf16 by index: empty string for an out-of-range index. -/
def strText_utf16 (m : Mst) (index : Nat) : List Nat :=
  if m.vStrTbl.length ≤ index then [] else (m.vStrTbl.getD index ([], [])).2

/-- Mst::strText_utf8 by name: empty string when the name is not in the
lookup map. -/
def strText_utf8ByName (m : Mst) (nm : List Nat) : List Nat :=
  match assocFindS m.vStrLkup nm with
  | none => []
  | some i => strText_utf8 m i

/-- Mst::strText_utf16 by name: empty string when the name is not in the
lookup map. -/
def strText_utf16ByName (m : Mst) (nm : List Nat) : List Nat :=
  match assocFindS m.vStrLkup nm with
  | none => []
  | some i => strText_utf16 m i

/-! ### Concrete inputs used as witnesses and counterexamples -/

/-- A 32-byte input whose header passes the magic, version and
endianness checks (version digit 1, endianness L) but declares a file
size of 10. -/
def c3file : List Nat :=
  [10, 0, 0, 0, 0, 0, 0, 0, 0, 0, 0, 0, 0, 0, 0, 0,
   0, 0, 0, 0, 0, 0, 49, 76, 66, 73, 78, 65, 0, 0, 0, 0]

/-- A well-formed 76-byte little-endian MST file: header with file size
76 and an empty differential offset table, WTXT sub-header with
table-name offset 36 and count 2, two records that share name offset 38
(the byte string A) and text offset 40 (the UTF-16 string h), then the
strings.  The scan visits a third pseudo-record made of string bytes and
stops there on an out-of-range name pointer. -/
def c7file : List Nat :=
  [76, 0, 0, 0, 0, 0, 0, 0, 0, 0, 0, 0,
   0, 0, 0, 0, 0, 0, 0, 0, 0, 0, 49, 76,
   66, 73, 78, 65, 0, 0, 0, 0,
   87, 84, 88, 84, 36, 0, 0, 0, 2, 0, 0, 0,
   38, 0, 0, 0, 40, 0, 0, 0, 0, 0, 0, 0,
   38, 0, 0, 0, 40, 0, 0, 0, 0, 0, 0, 0,
   84, 0, 65, 0,
   104, 0, 0, 0]

/-! ### Predicates describing the record scan, used to state C9 -/

/-- Name-offset field of record k, as the scan reads it. -/
def recNameOff (bytes : List Nat) (k : Nat) : Nat :=
  readU32 (declaredIsBE bytes) (bytes.take (declaredFileSize bytes)) (44 + 12 * k)

/-- Text-offset field of record k, as the scan reads it. -/
def recTextOff (bytes : List Nat) (k : Nat) : Nat :=
  readU32 (declaredIsBE bytes) (bytes.take (declaredFileSize bytes)) (44 + 12 * k + 4)

/-- Placeholder-offset field of record k, as the scan reads it. -/
def recPlaceholderOff (bytes : List Nat) (k : Nat) : Nat :=
  readU32 (declaredIsBE bytes) (bytes.take (declaredFileSize bytes)) (44 + 12 * k + 8)

/-- Record k stops the scan: its name, text or non-zero placeholder
pointer is at or past the end of the data region. -/
def recBad (bytes : List Nat) (k : Nat) : Prop :=
  declaredFileSize bytes ≤ 32 + recNameOff bytes k ∨
    declaredFileSize bytes ≤ 32 + recTextOff bytes k ∨
    (recPlaceholderOff bytes k ≠ 0 ∧
      declaredFileSize bytes ≤ 32 + recPlaceholderOff bytes k)

instance (bytes : List Nat) (k : Nat) : Decidable (recBad bytes k) := by
  unfold recBad
  infer_instance

/-- Name and text of the entry produced by scanning record k. -/
def recEntry (bytes : List Nat) (k : Nat) : List Nat × List Nat :=
  (readCStr (bytes.take (declaredFileSize bytes)) (32 + recNameOff bytes k),
   readU16Str (declaredIsBE bytes) (bytes.take (declaredFileSize bytes))
     (32 + recTextOff bytes k))

/-- All header and size checks of loadMST pass and the declared file
size is available, so the record scan runs. -/
def loadChecksOK (bytes : List Nat) : Prop :=
  32 ≤ bytes.length ∧ magicBytes bytes = BINA_SIG ∧ byteAt bytes 22 = 49 ∧
    (byteAt bytes 23 = 66 ∨ byteAt bytes 23 = 76) ∧
    56 ≤ declaredFileSize bytes ∧ declaredFileSize bytes ≤ 16777216 ∧
    32 + declaredDoffOff bytes + declaredDoffLen bytes ≤ declaredFileSize bytes ∧
    declaredFileSize bytes ≤ bytes.length

instance (bytes : List Nat) : Decidable (loadChecksOK bytes) := by
  unfold loadChecksOK
  infer_instance

/-! ### The lookup map after a binary load: first insertion wins -/

/-- Index of the first entry of the table bearing the given name. -/
def firstIdxWithName (tbl : List (List Nat × List Nat)) (key : List Nat) : Option Nat :=
  match tbl with
  | [] => none
  | e :: rest => if e.1 = key then some 0 else (firstIdxWithName rest key).map (· + 1)

/-! ### Mst::saveMST (src/Mst.cpp lines 546-857)

The writer is modelled entry by entry: saveInit is the table-name block,
saveEntry is one iteration of the entry loop, saveFinish is the base
address computation, alignment padding, offset rebasing and header
update.  The fwrite calls at the end are modelled as succeeding, so the
result of a successful save is the record of everything written. -/

/-- INVALID_OFFSET = the all-ones uint32. -/
def INVALID_OFFSET : Nat := 4294967295

/-- Byteswap of a 16-bit value. -/
def swab16 (v : Nat) : Nat := (v % 256) * 256 + (v / 256) % 256

/-- Byteswap of a 32-bit value. -/
def swab32 (v : Nat) : Nat :=
  (v % 256) * 2 ^ 24 + ((v / 256) % 256) * 2 ^ 16 +
    ((v / 2 ^ 16) % 256) * 2 ^ 8 + (v / 2 ^ 24) % 256

/-- SYS_BYTEORDER of the modelled host: little-endian. -/
def hostIsBigEndian : Bool := false

/-- The black-box UTF-8 to Shift-JIS transcoder, modelled as the
identity on byte sequences. -/
def utf8_to_cpN (s : List Nat) : List Nat := s

/-- utf16_bswap: byteswap every UTF-16 code unit. -/
def utf16_bswap (s : List Nat) : List Nat := s.map swab16

/-- One offset record (WTXT_MsgPointer, mst_structs.h). -/
structure WTXT_MsgPointer where
  name_offset : Nat
  text_offset : Nat
  placeholder_offset : Nat
deriving Repr, DecidableEq

/-- std::vector resize with zero fill (shrinks when the new size is
smaller, as resize does). -/
def resizeList (l : List Nat) (n : Nat) : List Nat :=
  if n ≤ l.length then l.take n else l ++ List.replicate (n - l.length) 0

/-- memcpy of data into a buffer at an element offset.  In the one place
the source reaches this with an offset beyond the buffer end (the
empty-name branch of the entry loop, claim C6) the C++ write is out of
bounds and undefined behavior; the model appends the data there. -/
def writeBytes (l : List Nat) (off : Nat) (data : List Nat) : List Nat :=
  l.take off ++ data ++ l.drop (off + data.length)

/-- ASCII decimal digits, with explicit fuel so the definition is
structural. -/
def decDigitsAux : Nat → Nat → List Nat
  | 0, _ => []
  | fuel + 1, n => if n = 0 then [] else decDigitsAux fuel (n / 10) ++ [n % 10 + 48]

/-- ASCII decimal representation of a natural number. -/
def decDigits (n : Nat) : List Nat :=
  if n = 0 then [48] else decDigitsAux (n + 1) n

/-- The synthesized name XXX_MSG_<idx> from the empty-name branch. -/
def xxxMsgName (idx : Nat) : List Nat :=
  [88, 88, 88, 95, 77, 83, 71, 95] ++ decDigits idx

/-- The fallback table name mst06_generic_name used when m_name is
empty; it is stored without a deduplication map entry. -/
def genericName : List Nat :=
  [109, 115, 116, 48, 54, 95, 103, 101, 110, 101, 114, 105, 99, 95, 110, 97, 109, 101]

/-- The mutable vectors of Mst::saveMST while the entry loop runs. -/
structure SaveSt where
  vOffsetTbl : List WTXT_MsgPointer
  vMsgText : List Nat
  vMsgNames : List Nat
  vDiffOffTbl : List Nat
  mapNameDedupe : List (List Nat × Nat)
deriving Repr, DecidableEq

/-- The table-name block of Mst::saveMST (lines 593-618): the table name
(or the generic fallback, which is not entered into the deduplication
map) goes into the name blob NUL-terminated, and the differential offset
table starts as the two codes A, B. -/
def saveInit (m : Mst) : SaveSt :=
  if m.name ≠ [] then
    { vOffsetTbl := [], vMsgText := [],
      vMsgNames := m.name ++ [0],
      vDiffOffTbl := [65, 66],
      mapNameDedupe := [(m.name, 0)] }
  else
    { vOffsetTbl := [], vMsgText := [],
      vMsgNames := genericName ++ [0],
      vDiffOffTbl := [65, 66],
      mapNameDedupe := [] }

/-- The shared find-or-append block of Mst::saveMST, duplicated in the
source for names (lines 633-656) and placeholders (lines 701-724): look
the string up in the deduplication map; if absent, record the current
blob size cast to uint32_t as its offset, append its Shift-JIS encoding
NUL-terminated (resize plus memcpy), and enter it into the map. -/
def findOrAppend (s : List Nat) (blob : List Nat) (dedupe : List (List Nat × Nat)) :
    Nat × List Nat × List (List Nat × Nat) :=
  match assocFindS dedupe s with
  | some off => (off, blob, dedupe)
  | none =>
    let off := blob.length % 2 ^ 32
    let sjis := utf8_to_cpN s
    (off, writeBytes (resizeList blob (off + sjis.length + 1)) off (sjis ++ [0]),
      dedupe ++ [(s, off)])

/-- The name block of the entry loop (lines 631-666).  For a non-empty
name this is the find-or-append block; for an empty name the record
field is never assigned and keeps INVALID_OFFSET while the synthesized
XXX_MSG_<idx> string is written through a resize whose uint32_t argument
wraps and a memcpy at offset INVALID_OFFSET (out of bounds in the C++,
see C6). -/
def nameStep (idx : Nat) (e1 : List Nat) (blob : List Nat)
    (dedupe : List (List Nat × Nat)) : Nat × List Nat × List (List Nat × Nat) :=
  if e1 ≠ [] then findOrAppend e1 blob dedupe
  else
    let buf := xxxMsgName idx
    (INVALID_OFFSET,
      writeBytes (resizeList blob ((INVALID_OFFSET + buf.length + 1) % 2 ^ 32))
        INVALID_OFFSET (buf ++ [0]),
      dedupe)

/-- The text block of the entry loop (lines 668-696): non-empty text is
appended to the text vector NUL-terminated, endianness-converted when
the host byte order differs from the file byte order; the offset is the
uint32 unit position times 2.  Empty text leaves the offset at
INVALID_OFFSET. -/
def textStep (hostMatches : Bool) (e2 : List Nat) (text : List Nat) : Nat × List Nat :=
  if e2 ≠ [] then
    let c16pos := text.length % 2 ^ 32
    let msg_text := if hostMatches then e2 else utf16_bswap e2
    ((c16pos * 2) % 2 ^ 32,
      writeBytes (resizeList text (c16pos + msg_text.length + 1)) c16pos (msg_text ++ [0]))
  else (INVALID_OFFSET, text)

/-- The placeholder block of the entry loop (lines 698-725): when a
placeholder exists for this index it goes through the find-or-append
block, otherwise the offset stays INVALID_OFFSET. -/
def phStep (placeholders : List (Nat × List Nat)) (idx : Nat) (blob : List Nat)
    (dedupe : List (List Nat × Nat)) : Nat × List Nat × List (List Nat × Nat) :=
  match assocFindN placeholders idx with
  | some ph => findOrAppend ph blob dedupe
  | none => (INVALID_OFFSET, blob, dedupe)

/-- One iteration of the entry loop of Mst::saveMST (lines 625-749) for
the entry e at index idx: the name, text and placeholder blocks, then
the must-hold check that both the name and the text offset were
assigned; on success the differential offset codes (AAA with a
placeholder, AB without) and the record are appended, otherwise the
whole save fails with -EIO. -/
def saveEntry (placeholders : List (Nat × List Nat)) (hostMatches : Bool)
    (idx : Nat) (e : List Nat × List Nat) (st : SaveSt) : Except Int SaveSt :=
  let nameRes := nameStep idx e.1 st.vMsgNames st.mapNameDedupe
  let textRes := textStep hostMatches e.2 st.vMsgText
  let phRes := phStep placeholders idx nameRes.2.1 nameRes.2.2
  if nameRes.1 ≠ INVALID_OFFSET ∧ textRes.1 ≠ INVALID_OFFSET then
    Except.ok
      { vOffsetTbl := st.vOffsetTbl ++ [⟨nameRes.1, textRes.1, phRes.1⟩],
        vMsgText := textRes.2,
        vMsgNames := phRes.2.1,
        vDiffOffTbl := st.vDiffOffTbl ++
          (if phRes.1 ≠ INVALID_OFFSET then [65, 65, 65] else [65, 66]),
        mapNameDedupe := phRes.2.2 }
  else
    Except.error (-5)

/-- The entry loop of Mst::saveMST. -/
def saveLoop (placeholders : List (Nat × List Nat)) (hostMatches : Bool) :
    Nat → List (List Nat × List Nat) → SaveSt → Except Int SaveSt
  | _, [], st => Except.ok st
  | idx, e :: rest, st =>
    match saveEntry placeholders hostMatches idx e st with
    | Except.error c => Except.error c
    | Except.ok st2 => saveLoop placeholders hostMatches (idx + 1) rest st2

/-- Everything Mst::saveMST writes.  Numeric header fields are the
in-memory uint32 values after any byteswap; on the little-endian host
the file bytes are their little-endian serialization. -/
structure MstFileOut where
  file_size : Nat
  doff_tbl_offset : Nat
  doff_tbl_length : Nat
  version : Nat
  endianness : Nat
  wtxt_name_offset : Nat
  wtxt_count : Nat
  vOffsetTbl : List WTXT_MsgPointer
  vMsgText : List Nat
  vMsgNames : List Nat
  vDiffOffTbl : List Nat
deriving Repr, DecidableEq

/-- Offset rebasing of one record field (lines 783-800): INVALID_OFFSET
becomes the absent marker 0, anything else gets the blob base added in
uint32 arithmetic. -/
def rebaseField (base : Nat) (v : Nat) : Nat :=
  if v = INVALID_OFFSET then 0 else (v + base) % 2 ^ 32

/-- Rebasing and byteswapping of one record. -/
def rebasePtr (hostMatches : Bool) (text_tbl_base name_tbl_base : Nat)
    (p : WTXT_MsgPointer) : WTXT_MsgPointer :=
  if hostMatches then
    ⟨rebaseField name_tbl_base p.name_offset, rebaseField text_tbl_base p.text_offset,
     rebaseField name_tbl_base p.placeholder_offset⟩
  else
    ⟨swab32 (rebaseField name_tbl_base p.name_offset),
     swab32 (rebaseField text_tbl_base p.text_offset),
     swab32 (rebaseField name_tbl_base p.placeholder_offset)⟩

/-- The tail of Mst::saveMST after the entry loop (lines 751-856): drop
the final differential offset code, compute the blob base addresses, pad
the name blob and the differential offset table to 4-byte alignment,
rebase all records, and fill in the two headers. -/
def saveFinish (m : Mst) (st : SaveSt) : MstFileOut :=
  let hostMatches := hostIsBigEndian == m.isBigEndian
  let diff1 := if st.vDiffOffTbl ≠ [] then st.vDiffOffTbl.dropLast else st.vDiffOffTbl
  let text_tbl_base := (12 + st.vOffsetTbl.length * 12) % 2 ^ 32
  let name_tbl_base := (text_tbl_base + st.vMsgText.length * 2) % 2 ^ 32
  let doff0 := (name_tbl_base + st.vMsgNames.length) % 2 ^ 32
  let names2 := if doff0 % 4 ≠ 0 then
      st.vMsgNames ++ List.replicate (4 - doff0 % 4) 0
    else st.vMsgNames
  let doff_tbl_offset := (name_tbl_base + names2.length) % 2 ^ 32
  let diff2 := if diff1.length % 4 ≠ 0 then
      diff1 ++ List.replicate (4 - diff1.length % 4) 0
    else diff1
  let doff_tbl_length := diff2.length % 2 ^ 32
  let fsVal := (32 + doff_tbl_offset + doff_tbl_length) % 2 ^ 32
  { file_size := if hostMatches then fsVal else swab32 fsVal,
    doff_tbl_offset := if hostMatches then doff_tbl_offset else swab32 doff_tbl_offset,
    doff_tbl_length := if hostMatches then doff_tbl_length else swab32 doff_tbl_length,
    version := m.version,
    endianness := if m.isBigEndian then 66 else 76,
    wtxt_name_offset := swab32 name_tbl_base,
    wtxt_count := swab32 (st.vOffsetTbl.length % 2 ^ 32),
    vOffsetTbl := st.vOffsetTbl.map (rebasePtr hostMatches text_tbl_base name_tbl_base),
    vMsgText := st.vMsgText,
    vMsgNames := names2,
    vDiffOffTbl := diff2 }

/-- Mst::saveMST (FILE overload): -ENODATA = -61 on an empty table, the
entry loop, then the finishing phase; the fwrite calls are modelled as
succeeding. -/
def saveMST (m : Mst) : Except Int MstFileOut :=
  if m.vStrTbl = [] then Except.error (-61)
  else
    match saveLoop m.mapPlaceholder (hostIsBigEndian == m.isBigEndian) 0 m.vStrTbl
        (saveInit m) with
    | Except.error c => Except.error c
    | Except.ok st => Except.ok (saveFinish m st)

/-! ### Mst::saveXML (src/Mst.cpp lines 887-930) -/

/-- One message element as Mst::saveXML builds it. -/
structure XmlMsg where
  index : Nat
  name : List Nat
  text : Option (List Nat)
  placeholder : Option (List Nat)
deriving Repr, DecidableEq

/-- The XML document as Mst::saveXML builds it. -/
structure XmlDoc where
  name : List Nat
  version : Nat
  endianness : Nat
  messages : List XmlMsg
deriving Repr, DecidableEq

/-- The message-building loop of Mst::saveXML: index and name
attributes, escaped text only when the text is non-empty, and an escaped
placeholder attribute when one exists for the index. -/
def saveXML_messages (placeholders : List (Nat × List Nat)) :
    Nat → List (List Nat × List Nat) → List XmlMsg
  | _, [] => []
  | idx, e :: rest =>
    { index := idx, name := e.1,
      text := if e.2 ≠ [] then some (escape (utf16_to_utf8 e.2)) else none,
      placeholder := (assocFindN placeholders idx).map escape } ::
      saveXML_messages placeholders (idx + 1) rest

/-- Mst::saveXML: -ENODATA = -61 on an empty table, otherwise the built
document (the tinyxml2 printer is modelled as accepting it). -/
def saveXML (m : Mst) : Except Int XmlDoc :=
  if m.vStrTbl = [] then Except.error (-61)
  else Except.ok
    { name := m.name, version := m.version,
      endianness := if m.isBigEndian then 66 else 76,
      messages := saveXML_messages m.mapPlaceholder 0 m.vStrTbl }

/-- A table with one entry whose name is A and whose text is empty. -/
def c5state : Mst :=
  { version := 49, isBigEndian := false, name := [84],
    vStrTbl := [([65], [])], vStrLkup := [([65], 0)], mapPlaceholder := [] }

/-- A table with one entry whose name is empty and whose text is the
code unit h. -/
def c6state : Mst :=
  { version := 49, isBigEndian := false, name := [84],
    vStrTbl := [([], [104])], vStrLkup := [], mapPlaceholder := [] }

/-! ### Name deduplication (C4): segment structure of the name blob -/

/-- Concatenation of NUL-terminated segments: the shape of the name blob
maintained by the writer. -/
def segJoin (L : List (List Nat)) : List Nat := (L.map (fun s => s ++ [0])).flatten

/-- Worst-case growth of the name blob from placeholder strings. -/
def phBudget (m : Mst) : Nat := (m.mapPlaceholder.map (fun p => p.2.length + 1)).sum

/-- Upper bound on the name blob size over the whole save: the
table-name block plus, per entry, its name and the placeholder budget. -/
def nameBlobBound (m : Mst) : Nat :=
  m.name.length + 19 + (m.vStrTbl.map (fun e => e.1.length + 1 + phBudget m)).sum

/-- Every string the save may store in the name blob is NUL-free. -/
def storedNulFree (m : Mst) : Prop :=
  (0 : Nat) ∉ m.name ∧ (∀ e ∈ m.vStrTbl, (0 : Nat) ∉ e.1) ∧
    ∀ p ∈ m.mapPlaceholder, (0 : Nat) ∉ p.2

instance (m : Mst) : Decidable (storedNulFree m) := by
  unfold storedNulFree
  infer_instance

/-- The blob-and-map relation for a fixed name n: the blob is a
concatenation of NUL-free NUL-terminated segments among which n occurs
once when the deduplication map binds it and never otherwise. -/
def NameBlobInv (n : List Nat) (L : List (List Nat)) (blob : List Nat)
    (dedupe : List (List Nat × Nat)) : Prop :=
  blob = segJoin L ∧ (∀ s ∈ L, (0 : Nat) ∉ s) ∧
    (match assocFindS dedupe n with
     | none => List.count n L = 0
     | some _ => List.count n L = 1)

/-- Loop invariant of the entry loop for the fixed name n: one record
per processed entry, the blob-and-map segment relation for n, the blob
length within the budget of the processed prefix, every processed record
whose entry name is n carrying the bound offset when n is bound, and no
processed entry named n when it is not. -/
def DedupInv (m : Mst) (n : List Nat) (processed : List (List Nat × List Nat))
    (st : SaveSt) : Prop :=
  ∃ L, NameBlobInv n L st.vMsgNames st.mapNameDedupe ∧
    st.vOffsetTbl.length = processed.length ∧
    st.vMsgNames.length ≤
      m.name.length + 19 + (processed.map (fun e => e.1.length + 1 + phBudget m)).sum ∧
    (∀ o, assocFindS st.mapNameDedupe n = some o →
      ∀ t, t < processed.length → (processed.getD t ([], [])).1 = n →
        (st.vOffsetTbl.getD t ⟨0, 0, 0⟩).name_offset = o) ∧
    (assocFindS st.mapNameDedupe n = none →
      ∀ t, t < processed.length → (processed.getD t ([], [])).1 ≠ n)

/-- The counterexample table for C4: an empty table name and two entries
named mst06_generic_name. -/
def c4state : Mst :=
  { version := 49, isBigEndian := false, name := [],
    vStrTbl := [(genericName, [104]), (genericName, [104])],
    vStrLkup := [(genericName, 0)], mapPlaceholder := [] }

/-- The witness table for C4: table name T and two entries named A with
text h. -/
def c4wstate : Mst :=
  { version := 49, isBigEndian := false, name := [84],
    vStrTbl := [([65], [104]), ([65], [104])],
    vStrLkup := [([65], 0)], mapPlaceholder := [] }

/-- The file the witness table saves to. -/
def c4wout : MstFileOut :=
  match saveMST c4wstate with
  | Except.ok out => out
  | Except.error _ =>
    { file_size := 0, doff_tbl_offset := 0, doff_tbl_length := 0, version := 0,
      endianness := 0, wtxt_name_offset := 0, wtxt_count := 0, vOffsetTbl := [],
      vMsgText := [], vMsgNames := [], vDiffOffTbl := [] }

/-! ### Mst::loadXML (src/Mst.cpp lines 327-516)

The XML file parse and the lookup of the mst06 root element are done by
the tinyxml2 collaborator, a black box here: the embedding takes the
parsed root element as input.  A missing attribute is none; an
attribute whose value is the empty string is some [].  A message index
attribute that is missing or is not an unsigned integer makes
QueryUnsignedAttribute fail, which is none here.  Mst::loadXML
unescapes the message text with the UTF-16 overload of Mst::unescape
(src/Mst.cpp lines 1164-1219), which mirrors the UTF-8 overload
modelled by unescape: its extra bound of 0x100 on the hex-digit code
units is subsumed by isxdigit, which accepts ASCII only. -/

/-- The black-box text transcoder from UTF-8 to UTF-16, modelled as the
identity on code-unit sequences. -/
def utf8_to_utf16 (s : List Nat) : List Nat := s

/-- std::unordered_map::erase by key, for the name-to-index map. -/
def assocEraseS (m : List (List Nat × Nat)) (k : List Nat) :
    List (List Nat × Nat) :=
  match m with
  | [] => []
  | p :: rest => if p.1 = k then assocEraseS rest k else p :: assocEraseS rest k

/-- One parsed message element, as the tinyxml2 collaborator delivers
it: index attribute (none when missing or not an unsigned integer),
name attribute, element text and placeholder attribute. -/
structure XmlInMsg where
  index : Option Nat
  name : Option (List Nat)
  text : Option (List Nat)
  placeholder : Option (List Nat)
deriving Repr, DecidableEq

/-- The parsed mst06 root element: name, mst_version and endianness
attributes, and the message child elements in document order. -/
structure XmlInDoc where
  name : Option (List Nat)
  mst_version : Option (List Nat)
  endianness : Option (List Nat)
  messages : List XmlInMsg
deriving Repr, DecidableEq

/-- Duplicate-message handling (src/Mst.cpp lines 478-491): the lookup
map after the check.  When the index already holds an entry with a
non-empty name, that name's binding is erased before the new message
supersedes the old entry; note the erased binding may point at another
index that shares the name. -/
def xmlDupErase (index : Nat) (m : Mst) : List (List Nat × Nat) :=
  if index < m.vStrTbl.length ∧ (m.vStrTbl.getD index ([], [])).1 ≠ [] then
    assocEraseS m.vStrLkup (m.vStrTbl.getD index ([], [])).1
  else m.vStrLkup

/-- Table growth (src/Mst.cpp lines 494-497): when the index is at or
past the current size, m_vStrTbl.resize(index+1) fills the new slots
with empty pairs. -/
def xmlGrowTbl (index : Nat) (tbl : List (List Nat × List Nat)) :
    List (List Nat × List Nat) :=
  if tbl.length ≤ index then tbl ++ List.replicate (index + 1 - tbl.length) ([], [])
  else tbl

/-- Storing one message (src/Mst.cpp lines 478-509): duplicate
handling, table growth, assignment of the entry's name and unescaped
text, insertion of the name into the lookup map (keeping an existing
binding), and recording of the optional placeholder attribute (also
keeping an existing binding). -/
def xmlStoreMsg (index : Nat) (msg_name msg_text : List Nat)
    (ph : Option (List Nat)) (m : Mst) : Mst :=
  { m with
    vStrTbl := (xmlGrowTbl index m.vStrTbl).set index
        (msg_name, unescape (utf8_to_utf16 msg_text)),
    vStrLkup := assocInsertS (xmlDupErase index m) msg_name index,
    mapPlaceholder :=
      match ph with
      | some p => assocInsertN m.mapPlaceholder index p
      | none => m.mapPlaceholder }

/-- The message loop of Mst::loadXML (src/Mst.cpp lines 423-510).  A
message whose index attribute is missing or not an unsigned integer, or
whose name attribute is missing or empty, is skipped; missing element
text reads as the empty string. -/
def loadXML_messages : List XmlInMsg → Mst → Mst
  | [], m => m
  | msg :: rest, m =>
    match msg.index, msg.name with
    | some index, some (b :: t) =>
      loadXML_messages rest
        (xmlStoreMsg index (b :: t) (msg.text.getD []) msg.placeholder m)
    | _, _ => loadXML_messages rest m

/-- Version byte after the mst_version attribute handling of
Mst::loadXML (src/Mst.cpp lines 365-376): when the attribute is
present, m_version becomes the first byte of its value (a value other
than the digit 1 only warns); otherwise the cleared default 1 stays. -/
def xmlVersionByte (doc : XmlInDoc) : Nat :=
  match doc.mst_version with
  | some v => v.headD 0
  | none => 49

/-- Endianness flag after the endianness attribute handling of
Mst::loadXML (src/Mst.cpp lines 377-392): the value is valid only when
it is exactly B or L; anything else keeps the big-endian default. -/
def xmlEndianFlag (doc : XmlInDoc) : Bool :=
  match doc.endianness with
  | some e => if e == [66] || e == [76] then e == [66] else true
  | none => true

/-- Container state after the clearing block and the mst_version and
endianness attribute handling of Mst::loadXML (src/Mst.cpp lines
333-392). -/
def xmlHeaderSt (doc : XmlInDoc) : Mst :=
  { clearedMst with version := xmlVersionByte doc, isBigEndian := xmlEndianFlag doc }

/-- Mst::loadXML (src/Mst.cpp lines 327-516) over the parsed mst06 root
element.  The container state is cleared, the version and endianness
attributes are applied, a missing or empty name attribute returns -EIO,
as does a document without message elements (which also clears the
table name again); otherwise the message loop runs and 0 is returned. -/
def loadXML (doc : XmlInDoc) : Int × Mst :=
  match doc.name with
  | none => (-5, xmlHeaderSt doc)
  | some [] => (-5, xmlHeaderSt doc)
  | some (b :: t) =>
    if doc.messages = [] then (-5, { xmlHeaderSt doc with name := [] })
    else (0, loadXML_messages doc.messages { xmlHeaderSt doc with name := b :: t })

/-- A parsed XML document with table name T and one message element:
index 0, name A, text h. -/
def c7doc : XmlInDoc :=
  { name := some [84], mst_version := some [49], endianness := some [76],
    messages := [{ index := some 0, name := some [65], text := some [104],
                   placeholder := none }] }

/-! ### Theorems -/

/-! ### Lemmas about escape and unescape -/

theorem foldl_escChar (s : List Nat) (init : List Nat) :
    s.foldl (fun acc b => acc ++ escChar b) init = init ++ (s.map escChar).flatten := by
  induction s generalizing init with
  | nil => simp
  | cons b t ih => simp [ih, List.append_assoc]

theorem escSpaceStep_eq (sp : Bool) (b : Nat) : escSpaceStep sp b = (sp && (b == 32)) := by
  unfold escSpaceStep
  split
  · rename_i h
    rcases h with h | h | h <;> subst h <;> simp
  · rfl

theorem foldl_escSpace (s : List Nat) (sp : Bool) :
    s.foldl escSpaceStep sp = (sp && s.all (fun b => b == 32)) := by
  induction s generalizing sp with
  | nil => simp
  | cons b t ih => simp [escSpaceStep_eq, ih, Bool.and_assoc]

theorem escChar_ne_nil (b : Nat) : escChar b ≠ [] := by
  unfold escChar
  split
  · simp
  split
  · simp
  split <;> simp

theorem flatten_escChar_eq_nil (s : List Nat) : ((s.map escChar).flatten = []) ↔ s = [] := by
  cases s with
  | nil => simp
  | cons b t => simp [escChar_ne_nil]

theorem escape_eq (s : List Nat) :
    escape s = if s ≠ [] ∧ s.all (fun b => b == 32) then
        [92, 120, 50, 48] ++ ((s.map escChar).flatten).drop 1
      else (s.map escChar).flatten := by
  unfold escape
  rw [foldl_escChar, foldl_escSpace]
  simp only [List.nil_append, Bool.true_and]
  refine if_congr ?_ rfl rfl
  constructor
  · rintro ⟨h1, h2⟩
    exact ⟨fun hs => h1 (by simp [hs]), h2⟩
  · rintro ⟨h1, h2⟩
    exact ⟨fun hj => h1 ((flatten_escChar_eq_nil s).mp hj), h2⟩

theorem unescape_cons_other (b : Nat) (t : List Nat) (h0 : b ≠ 0) (h92 : b ≠ 92) :
    unescape (b :: t) = b :: unescape t := by
  rw [unescape.eq_def]
  split <;> simp_all

theorem unescape_escaped_backslash (t : List Nat) :
    unescape (92 :: 92 :: t) = 92 :: unescape t := rfl

theorem unescape_escaped_newline (t : List Nat) :
    unescape (92 :: 110 :: t) = 10 :: unescape t := rfl

theorem unescape_escaped_formfeed (t : List Nat) :
    unescape (92 :: 102 :: t) = 12 :: unescape t := rfl

theorem unescape_hex_space (t : List Nat) :
    unescape (92 :: 120 :: 50 :: 48 :: t) = 32 :: unescape t := by
  rw [unescape.eq_def]
  norm_num [isxdigit, hexval]

theorem unescape_flatten_escChar (s : List Nat) (h : (0 : Nat) ∉ s) :
    unescape ((s.map escChar).flatten) = s := by
  induction s with
  | nil => rfl
  | cons b t ih =>
    have hb : b ≠ 0 := fun hb => h (hb ▸ List.mem_cons_self b t)
    have ht : (0 : Nat) ∉ t := fun hm => h (List.mem_cons_of_mem b hm)
    by_cases h92 : b = 92
    · subst h92
      simpa [escChar, unescape_escaped_backslash] using ih ht
    · by_cases h10 : b = 10
      · subst h10
        simpa [escChar, unescape_escaped_newline] using ih ht
      · by_cases h12 : b = 12
        · subst h12
          simpa [escChar, unescape_escaped_formfeed] using ih ht
        · have hstep : (((b :: t).map escChar).flatten) = b :: (t.map escChar).flatten := by
            simp [escChar, h92, h10, h12]
          rw [hstep, unescape_cons_other b _ hb h92, ih ht]

theorem unescape_replicate_space (k : Nat) :
    unescape (List.replicate k 32) = List.replicate k 32 := by
  induction k with
  | zero => rfl
  | succ n ih =>
    rw [List.replicate_succ, unescape_cons_other 32 _ (by decide) (by decide), ih]

theorem flatten_escChar_replicate_space (n : Nat) :
    ((List.replicate n 32).map escChar).flatten = List.replicate n 32 := by
  induction n with
  | zero => rfl
  | succ k ih => simp [List.replicate_succ, escChar, ih]

/-- C1 counterexample: the round-trip law fails on the one-byte string
consisting of a single NUL character, which contains no backslash-x hex
sequence, because unescape iterates over c_str() and stops at the first
NUL byte while escape processes the whole string. -/
theorem c1_counterexample : unescape (escape [0]) ≠ [0] := by decide

/-- C1 (amended): for every string that contains no NUL byte,
unescape(escape(s)) = s.  No exception for backslash-x-hex sequences is
needed: escape doubles every backslash, so an escaped string never
contains a bare hex escape except the one produced by the all-spaces
fixup, which decodes back to the original space. -/
theorem c1_unescape_escape (s : List Nat) (h : (0 : Nat) ∉ s) :
    unescape (escape s) = s := by
  rw [escape_eq]
  split
  · rename_i hcond
    obtain ⟨hne, hall⟩ := hcond
    rw [List.all_eq_true] at hall
    rcases s with _ | ⟨b, t⟩
    · exact absurd rfl hne
    · have hb : b = 32 := by
        have := hall b (List.mem_cons_self b t)
        simpa using this
      subst hb
      have ht32 : ∀ x ∈ t, x = 32 := by
        intro x hx
        have := hall x (List.mem_cons_of_mem 32 hx)
        simpa using this
      have htrep : t = List.replicate t.length 32 := List.eq_replicate_of_mem ht32
      have hflat : (((32 :: t).map escChar).flatten) = 32 :: (t.map escChar).flatten := by
        simp [escChar]
      have htj : ((t.map escChar).flatten) = t := by
        conv_lhs => rw [htrep]
        rw [flatten_escChar_replicate_space, ← htrep]
      rw [hflat]
      simp only [List.drop_succ_cons, List.drop_zero]
      rw [htj]
      rw [show [92, 120, 50, 48] ++ t = 92 :: 120 :: 50 :: 48 :: t from rfl,
        unescape_hex_space]
      conv_lhs => rw [htrep, unescape_replicate_space]
      rw [← htrep]
  · exact unescape_flatten_escChar s h

/-- C1 witness: the amended round-trip theorem applied to a concrete
string containing a backslash, a newline, a form feed, a literal
backslash-x-2-0 lookalike and spaces. -/
theorem c1_unescape_escape_witness :
    (0 : Nat) ∉ [92, 10, 12, 120, 50, 48, 32] ∧
      unescape (escape [92, 10, 12, 120, 50, 48, 32]) = [92, 10, 12, 120, 50, 48, 32] :=
  ⟨by decide, c1_unescape_escape [92, 10, 12, 120, 50, 48, 32] (by decide)⟩

/-! ### Facts about the reader used by several claims -/

theorem withTableName_vStrTbl (bytes : List Nat) : (withTableName bytes).vStrTbl = [] := by
  simp only [withTableName]
  split <;> rfl

theorem withTableName_vStrLkup (bytes : List Nat) : (withTableName bytes).vStrLkup = [] := by
  simp only [withTableName]
  split <;> rfl

theorem withTableName_isBigEndian (bytes : List Nat) :
    (withTableName bytes).isBigEndian = declaredIsBE bytes := by
  simp only [withTableName]
  split <;> rfl

theorem scanRecords_isBigEndian (data : List Nat) (fs : Nat) (be : Bool) :
    ∀ (ks : List Nat) (m : Mst),
      (scanRecords data fs be ks m).isBigEndian = m.isBigEndian := by
  intro ks
  induction ks with
  | nil => intro m; rfl
  | cons k rest ih =>
    intro m
    rw [scanRecords]
    split
    · rfl
    split
    · rfl
    split
    · rfl
    · rw [ih]

/-- C2: loadMST rejects any input whose magic bytes are not BINA, whose
version byte is not the digit 1, or whose endianness byte is neither B
nor L, producing no entries; and whenever the header is present and
those checks pass, the recorded bigEndian flag equals the test
endianness byte equals B. -/
theorem c2_header_validation (bytes : List Nat) :
    ((magicBytes bytes ≠ BINA_SIG ∨ byteAt bytes 22 ≠ 49 ∨
        (byteAt bytes 23 ≠ 66 ∧ byteAt bytes 23 ≠ 76)) →
      (loadMST bytes).1 < 0 ∧ (loadMST bytes).2.vStrTbl = []) ∧
    ((32 ≤ bytes.length ∧ magicBytes bytes = BINA_SIG ∧ byteAt bytes 22 = 49 ∧
        (byteAt bytes 23 = 66 ∨ byteAt bytes 23 = 76)) →
      (loadMST bytes).2.isBigEndian = (byteAt bytes 23 == 66)) := by
  unfold loadMST
  split_ifs with h1 h2 h3 h4 h5 h6 h7
  · exact ⟨fun _ => ⟨by norm_num, rfl⟩, fun hgood => absurd hgood.1 (by omega)⟩
  · exact ⟨fun _ => ⟨by norm_num, rfl⟩, fun hgood => absurd hgood.2.1 h2⟩
  · refine ⟨fun _ => ⟨by norm_num, rfl⟩, fun hgood => ?_⟩
    rcases h3 with hv | he
    · exact absurd hgood.2.2.1 hv
    · rcases hgood.2.2.2 with h | h
      · exact absurd h he.1
      · exact absurd h he.2
  · exact ⟨fun _ => ⟨by norm_num, rfl⟩, fun _ => rfl⟩
  · exact ⟨fun _ => ⟨by norm_num, rfl⟩, fun _ => rfl⟩
  · exact ⟨fun _ => ⟨by norm_num, rfl⟩, fun _ => rfl⟩
  · exact ⟨fun _ => ⟨by norm_num, rfl⟩, fun _ => rfl⟩
  · push_neg at h2 h3
    refine ⟨fun hbad => ?_, fun _ => ?_⟩
    · rcases hbad with hb | hb | hb
      · exact absurd h2 hb
      · exact absurd h3.1 hb
      · exact absurd (h3.2 hb.1) hb.2
    · rw [scanRecords_isBigEndian, withTableName_isBigEndian]
      rfl

/-- C2 witness: the empty input is rejected with no entries, and a valid
little-endian file records a bigEndian flag of false. -/
theorem c2_header_validation_witness :
    ((magicBytes [] ≠ BINA_SIG ∨ byteAt [] 22 ≠ 49 ∨
        (byteAt [] 23 ≠ 66 ∧ byteAt [] 23 ≠ 76)) ∧
      (loadMST []).1 < 0 ∧ (loadMST []).2.vStrTbl = []) ∧
    ((32 ≤ c7file.length ∧ magicBytes c7file = BINA_SIG ∧ byteAt c7file 22 = 49 ∧
        (byteAt c7file 23 = 66 ∨ byteAt c7file 23 = 76)) ∧
      (loadMST c7file).2.isBigEndian = (byteAt c7file 23 == 66)) :=
  ⟨⟨by decide, (c2_header_validation []).1 (by decide)⟩,
   ⟨by decide, (c2_header_validation c7file).2 (by decide)⟩⟩

/-- C3: loadMST fails (and loads no entries) whenever the declared file
size is below 56 = 32 + 12 + 12 bytes, above 16 MiB, or too small to
contain the declared differential offset table region. -/
theorem c3_file_size_validation (bytes : List Nat)
    (h : declaredFileSize bytes < 56 ∨ 16777216 < declaredFileSize bytes ∨
      declaredFileSize bytes < 32 + declaredDoffOff bytes + declaredDoffLen bytes) :
    (loadMST bytes).1 < 0 ∧ (loadMST bytes).2.vStrTbl = [] := by
  unfold loadMST
  split_ifs with h1 h2 h3 h4 h5 h6 h7
  · exact ⟨by norm_num, rfl⟩
  · exact ⟨by norm_num, rfl⟩
  · exact ⟨by norm_num, rfl⟩
  · exact ⟨by norm_num, rfl⟩
  · exact ⟨by norm_num, rfl⟩
  · exact ⟨by norm_num, rfl⟩
  · exact ⟨by norm_num, rfl⟩
  · exfalso
    omega

/-- C3 witness: a 32-byte input with a valid header that declares a file
size of 10. -/
theorem c3_file_size_validation_witness :
    (declaredFileSize c3file < 56 ∨ 16777216 < declaredFileSize c3file ∨
      declaredFileSize c3file < 32 + declaredDoffOff c3file + declaredDoffLen c3file) ∧
    (loadMST c3file).1 < 0 ∧ (loadMST c3file).2.vStrTbl = [] :=
  ⟨by decide, c3_file_size_validation c3file (by decide)⟩

/-! ### The record scan stops at the first out-of-range record -/

theorem scanRecords_stops (bytes : List Nat) :
    ∀ (k i n : Nat) (m : Mst), k < n → recBad bytes (i + k) →
      (∀ j, j < k → ¬ recBad bytes (i + j)) →
      (scanRecords (bytes.take (declaredFileSize bytes)) (declaredFileSize bytes)
          (declaredIsBE bytes) (List.range' i n) m).vStrTbl =
        m.vStrTbl ++ (List.range' i k).map (recEntry bytes) := by
  intro k
  induction k with
  | zero =>
    intro i n m hkn hbad _
    obtain ⟨n2, rfl⟩ : ∃ n2, n = n2 + 1 := ⟨n - 1, by omega⟩
    rw [List.range'_succ, scanRecords]
    simp only [Nat.add_zero] at hbad
    unfold recBad recNameOff recTextOff recPlaceholderOff at hbad
    split_ifs with hc1 hc2 hc3 hp
    · simp
    · simp
    · simp
    all_goals
      exfalso
      rcases hbad with hb | hb | hb
      · exact hc1 hb
      · exact hc2 hb
      · exact hc3 hb
  | succ k ih =>
    intro i n m hkn hbad hgood
    obtain ⟨n2, rfl⟩ : ∃ n2, n = n2 + 1 := ⟨n - 1, by omega⟩
    rw [List.range'_succ, scanRecords]
    have hg0 := hgood 0 (by omega)
    simp only [Nat.add_zero] at hg0
    unfold recBad recNameOff recTextOff recPlaceholderOff at hg0
    push_neg at hg0
    split_ifs with hc1 hc2 hc3 hp
    · exact absurd hc1 (by omega)
    · exact absurd hc2 (by omega)
    · exact absurd (hg0.2.2 hc3.1) (by omega)
    all_goals
      have harith : i + (k + 1) = (i + 1) + k := by omega
      rw [harith] at hbad
      have hgood2 : ∀ j, j < k → ¬ recBad bytes ((i + 1) + j) := by
        intro j hj
        have hg := hgood (j + 1) (by omega)
        have harith2 : i + (j + 1) = (i + 1) + j := by omega
        rwa [harith2] at hg
      simp only []
      rw [ih (i + 1) n2 _ (by omega) hbad hgood2]
      rw [List.range'_succ, List.map_cons, List.append_assoc]
      rfl

/-- C9: when the header and size checks pass and record k is the first
record whose name, text or placeholder pointer is out of range, loadMST
still returns 0 and the resulting table holds exactly the entries of the
k records before it. -/
theorem c9_partial_load (bytes : List Nat) (k : Nat)
    (hok : loadChecksOK bytes)
    (hrec : 44 + 12 * k < declaredFileSize bytes)
    (hbad : recBad bytes k)
    (hgood : ∀ j, j < k → ¬ recBad bytes j) :
    (loadMST bytes).1 = 0 ∧
      (loadMST bytes).2.vStrTbl = (List.range k).map (recEntry bytes) := by
  obtain ⟨hlen, hmagic, hver, hend, hmin, hmax, hdoff, hread⟩ := hok
  unfold loadMST
  split_ifs with h1 h2 h3 h4 h5 h6 h7
  · exact absurd hlen (by omega)
  · exact absurd hmagic h2
  · rcases h3 with hv | he
    · exact absurd hver hv
    · rcases hend with h | h
      · exact absurd h he.1
      · exact absurd h he.2
  · exact absurd hmin (by omega)
  · exact absurd hmax (by omega)
  · exact absurd hdoff (by omega)
  · exact absurd hread (by omega)
  · refine ⟨rfl, ?_⟩
    have hkn : k < numRecords (declaredFileSize bytes) := by
      unfold numRecords
      omega
    have hb0 : recBad bytes (0 + k) := by simpa using hbad
    have hg0 : ∀ j, j < k → ¬ recBad bytes (0 + j) := by
      intro j hj
      simpa using hgood j hj
    have hs := scanRecords_stops bytes k 0 (numRecords (declaredFileSize bytes))
      (withTableName bytes) hkn hb0 hg0
    rw [List.range_eq_range', hs, withTableName_vStrTbl, List.nil_append,
      List.range_eq_range']

/-- C9 witness: in the concrete two-record file the third pseudo-record
is the first out-of-range one, the load succeeds and exactly the two
real entries are kept. -/
theorem c9_partial_load_witness :
    (loadChecksOK c7file ∧ 44 + 12 * 2 < declaredFileSize c7file ∧ recBad c7file 2 ∧
        (∀ j, j < 2 → ¬ recBad c7file j)) ∧
      (loadMST c7file).1 = 0 ∧
      (loadMST c7file).2.vStrTbl = (List.range 2).map (recEntry c7file) :=
  ⟨⟨by decide, by decide, by decide, by decide⟩,
   c9_partial_load c7file 2 (by decide) (by decide) (by decide) (by decide)⟩

theorem firstIdxWithName_append_one (tbl : List (List Nat × List Nat))
    (e : List Nat × List Nat) (key : List Nat) :
    firstIdxWithName (tbl ++ [e]) key =
      match firstIdxWithName tbl key with
      | some x => some x
      | none => if e.1 = key then some tbl.length else none := by
  induction tbl with
  | nil => simp [firstIdxWithName]
  | cons a t ih =>
    by_cases h : a.1 = key
    · simp [firstIdxWithName, h]
    · simp only [List.cons_append, firstIdxWithName, h, if_false, List.append_eq]
      rw [ih]
      cases hf : firstIdxWithName t key
      · by_cases he : e.1 = key <;> simp [he, List.length_cons]
      · simp

theorem assocFindS_append_one (m : List (List Nat × Nat)) (k : List Nat) (v : Nat)
    (key : List Nat) :
    assocFindS (m ++ [(k, v)]) key =
      match assocFindS m key with
      | some x => some x
      | none => if k = key then some v else none := by
  induction m with
  | nil => simp [assocFindS]
  | cons p rest ih =>
    by_cases h : p.1 = key
    · simp [assocFindS, h]
    · simp only [List.cons_append, assocFindS, h, if_false]
      exact ih

theorem scanRecords_lkup (data : List Nat) (fs : Nat) (be : Bool) :
    ∀ (n i : Nat) (m : Mst), i = m.vStrTbl.length →
      (∀ key, assocFindS m.vStrLkup key = firstIdxWithName m.vStrTbl key) →
      ∀ key,
        assocFindS (scanRecords data fs be (List.range' i n) m).vStrLkup key =
          firstIdxWithName (scanRecords data fs be (List.range' i n) m).vStrTbl key := by
  intro n
  induction n with
  | zero =>
    intro i m _ hinv key
    exact hinv key
  | succ n2 ih =>
    intro i m hlen hinv key
    rw [List.range'_succ, scanRecords]
    split_ifs with hc1 hc2 hc3 hp
    · exact hinv key
    · exact hinv key
    · exact hinv key
    all_goals
      simp only []
      refine ih (i + 1) _ (by simp [hlen]) ?_ key
      intro key2
      set nm := readCStr data (32 + readU32 be data (44 + 12 * i)) with hnm
      unfold assocInsertS
      cases hfound : assocFindS m.vStrLkup nm
      · rw [assocFindS_append_one, firstIdxWithName_append_one]
        rw [hinv key2]
        cases hidx : firstIdxWithName m.vStrTbl key2
        · simp only []
          by_cases hkey : nm = key2
          · subst hkey
            simp [hlen]
          · simp [hkey]
        · simp only []
      · rw [firstIdxWithName_append_one]
        rw [hinv key2]
        cases hidx : firstIdxWithName m.vStrTbl key2
        · simp only []
          have hkey : nm ≠ key2 := by
            intro h
            subst h
            rw [hinv nm, hidx] at hfound
            exact Option.noConfusion hfound
          simp [hkey]
        · simp only []

/-- C7 counterexample: loading a binary file with two entries that share
the non-empty name A leaves the lookup map pointing at index 0, the
first entry bearing the name, while the claim requires the last-written
index 1; both entries remain in the table. -/
theorem c7_counterexample :
    (loadMST c7file).2.vStrTbl.map Prod.fst = [[65], [65]] ∧
      ([65] : List Nat) ≠ [] ∧
      (loadMST c7file).2.vStrTbl.length - 1 = 1 ∧
      assocFindS (loadMST c7file).2.vStrLkup [65] = some 0 := by
  decide

/-- After any binary load, the lookup map sends every name to the index
of the first entry bearing it, because std::unordered_map::insert keeps
the existing binding; all entries stay in the entries sequence. -/
theorem loadMST_lkup_first (bytes : List Nat) (key : List Nat) :
    assocFindS (loadMST bytes).2.vStrLkup key =
      firstIdxWithName (loadMST bytes).2.vStrTbl key := by
  unfold loadMST
  split_ifs
  any_goals rfl
  rw [List.range_eq_range']
  exact scanRecords_lkup _ _ _ (numRecords (declaredFileSize bytes)) 0 (withTableName bytes)
    (by rw [withTableName_vStrTbl]; rfl)
    (fun key2 => by rw [withTableName_vStrTbl, withTableName_vStrLkup]; rfl)
    key

/-- C10: the index accessors return the empty string for any index at or
past the string count, and the name-keyed accessors return the empty
string when the name is not in the lookup map. -/
theorem c10_accessors_safe (m : Mst) (index : Nat) (nm : List Nat) :
    (m.vStrTbl.length ≤ index →
      strName m index = [] ∧ strText_utf8 m index = [] ∧ strText_utf16 m index = []) ∧
    (assocFindS m.vStrLkup nm = none →
      strText_utf8ByName m nm = [] ∧ strText_utf16ByName m nm = []) := by
  constructor
  · intro h
    refine ⟨?_, ?_, ?_⟩ <;> simp [strName, strText_utf8, strText_utf16, h]
  · intro h
    constructor <;> simp [strText_utf8ByName, strText_utf16ByName, h]

/-- C10 witness: the accessors on a freshly cleared container at index 5
and for a name that is not present. -/
theorem c10_accessors_safe_witness :
    (clearedMst.vStrTbl.length ≤ 5 ∧
      strName clearedMst 5 = [] ∧ strText_utf8 clearedMst 5 = [] ∧
      strText_utf16 clearedMst 5 = []) ∧
    (assocFindS clearedMst.vStrLkup [65] = none ∧
      strText_utf8ByName clearedMst [65] = [] ∧ strText_utf16ByName clearedMst [65] = []) :=
  ⟨⟨by decide, (c10_accessors_safe clearedMst 5 [65]).1 (by decide)⟩,
   ⟨by decide, (c10_accessors_safe clearedMst 5 [65]).2 (by decide)⟩⟩

/-- C8: saving an empty table fails with the empty-data error -ENODATA
on both the binary and the XML save paths, writing nothing. -/
theorem c8_empty_table (m : Mst) (h : m.vStrTbl = []) :
    saveMST m = Except.error (-61) ∧ saveXML m = Except.error (-61) := by
  unfold saveMST saveXML
  rw [if_pos h, if_pos h]
  exact ⟨rfl, rfl⟩

/-- C8 witness: the freshly cleared container is empty and both save
paths fail on it. -/
theorem c8_empty_table_witness :
    clearedMst.vStrTbl = [] ∧ saveMST clearedMst = Except.error (-61) ∧
      saveXML clearedMst = Except.error (-61) :=
  ⟨rfl, (c8_empty_table clearedMst rfl).1, (c8_empty_table clearedMst rfl).2⟩

/-- C5: contrary to the claim, an entry with a non-empty name and empty
text makes saveMST fail with -EIO instead of writing a record with text
offset 0: the text step only assigns the offset for non-empty text, so
the record keeps INVALID_OFFSET and the name-and-text check rejects it;
the INVALID-to-0 conversion for text offsets in the rebase loop is
unreachable. -/
theorem c5_empty_text_fails : saveMST c5state = Except.error (-5) := by rfl

/-- C6: contrary to the claim, an entry with an empty name makes saveMST
fail with -EIO: the branch that synthesizes XXX_MSG_<idx> never assigns
ptr.name_offset, which keeps INVALID_OFFSET, so the name-and-text check
rejects the record (and on the way the uint32 resize argument wraps and
the memcpy writes out of bounds). -/
theorem c6_empty_name_fails : saveMST c6state = Except.error (-5) := by rfl

theorem segJoin_append (L1 L2 : List (List Nat)) :
    segJoin (L1 ++ L2) = segJoin L1 ++ segJoin L2 := by
  simp [segJoin]

theorem segJoin_one (s : List Nat) : segJoin [s] = s ++ [0] := by
  simp [segJoin]

theorem segJoin_length (L : List (List Nat)) :
    (segJoin L).length = (L.map (fun s => s.length + 1)).sum := by
  induction L with
  | nil => rfl
  | cons s t ih => simp [segJoin, List.length_append] at ih ⊢; omega

/-- Appending a NUL-terminated string at the end of the blob, as the
resize plus memcpy pair does when the uint32 cast of the size does not
wrap. -/
theorem append_resize_write (blob s : List Nat) (h : blob.length < 2 ^ 32) :
    writeBytes (resizeList blob (blob.length % 2 ^ 32 + s.length + 1))
      (blob.length % 2 ^ 32) (s ++ [0]) = blob ++ s ++ [0] := by
  rw [Nat.mod_eq_of_lt h]
  unfold resizeList writeBytes
  rw [if_neg (by omega)]
  have hrep : blob.length + s.length + 1 - blob.length = s.length + 1 := by omega
  rw [hrep]
  have htake : (blob ++ List.replicate (s.length + 1) 0).take blob.length = blob := by
    rw [List.take_append_of_le_length (le_refl _), List.take_length]
  have hdrop : (blob ++ List.replicate (s.length + 1) 0).drop
      (blob.length + (s ++ [0]).length) = [] := by
    apply List.drop_eq_nil_of_le
    simp
  rw [htake, hdrop, List.append_nil, List.append_assoc]

/-- Characterization of the find-or-append block when the blob is still
short enough that the uint32 size cast is exact. -/
theorem findOrAppend_eq (s blob : List Nat) (dedupe : List (List Nat × Nat))
    (h : blob.length < 2 ^ 32) :
    findOrAppend s blob dedupe =
      match assocFindS dedupe s with
      | some off => (off, blob, dedupe)
      | none => (blob.length, blob ++ s ++ [0], dedupe ++ [(s, blob.length)]) := by
  unfold findOrAppend
  cases hf : assocFindS dedupe s
  · simp only []
    rw [show utf8_to_cpN s = s from rfl]
    rw [append_resize_write blob s h, Nat.mod_eq_of_lt h]
  · rfl

theorem findOrAppend_inv (n s : List Nat) (L : List (List Nat)) (blob : List Nat)
    (dedupe : List (List Nat × Nat)) (h : blob.length < 2 ^ 32) (hs0 : (0 : Nat) ∉ s)
    (hinv : NameBlobInv n L blob dedupe) :
    ∃ L2, NameBlobInv n L2 (findOrAppend s blob dedupe).2.1
        (findOrAppend s blob dedupe).2.2 ∧
      (findOrAppend s blob dedupe).2.1.length ≤ blob.length + s.length + 1 ∧
      (∀ o, assocFindS dedupe n = some o →
        assocFindS (findOrAppend s blob dedupe).2.2 n = some o) ∧
      (s = n → assocFindS (findOrAppend s blob dedupe).2.2 n =
        some (findOrAppend s blob dedupe).1) := by
  obtain ⟨hblob, hLnf, hcnt⟩ := hinv
  rw [findOrAppend_eq s blob dedupe h]
  cases hf : assocFindS dedupe s with
  | some off =>
    simp only [hf] at hcnt ⊢
    refine ⟨L, ⟨hblob, hLnf, ?_⟩, by omega, fun o ho => ho, fun hsn => ?_⟩
    · cases hfn : assocFindS dedupe n <;> simp only [hfn] at hcnt ⊢ <;> exact hcnt
    · subst hsn
      exact hf
  | none =>
    simp only [hf]
    refine ⟨L ++ [s], ⟨?_, ?_, ?_⟩, ?_, ?_, ?_⟩
    · rw [segJoin_append, segJoin_one, hblob, List.append_assoc]
    · intro x hx
      rcases List.mem_append.mp hx with hx | hx
      · exact hLnf x hx
      · rw [List.mem_singleton.mp hx]
        exact hs0
    · rw [assocFindS_append_one]
      cases hfn : assocFindS dedupe n
      · simp only [hfn] at hcnt
        by_cases hsn : s = n
        · subst hsn
          simp [List.count_append, hcnt]
        · have : ¬(s == n) = true := by simpa using hsn
          simp [hsn, List.count_append, hcnt, List.count_cons, this]
      · simp only [hfn] at hcnt ⊢
        have hsn : s ≠ n := by
          intro hsn
          subst hsn
          rw [hf] at hfn
          exact Option.noConfusion hfn
        have : ¬(s == n) = true := by simpa using hsn
        simp [List.count_append, hcnt, List.count_cons, this]
    · simp
      omega
    · intro o ho
      rw [assocFindS_append_one, ho]
    · intro hsn
      subst hsn
      rw [assocFindS_append_one, hf]
      simp

theorem nameStep_ne (idx : Nat) (e1 blob : List Nat) (d : List (List Nat × Nat))
    (he1 : e1 ≠ []) : nameStep idx e1 blob d = findOrAppend e1 blob d := by
  unfold nameStep
  rw [if_pos he1]

theorem phStep_none (placeholders : List (Nat × List Nat)) (idx : Nat) (blob : List Nat)
    (d : List (List Nat × Nat)) (h : assocFindN placeholders idx = none) :
    phStep placeholders idx blob d = (INVALID_OFFSET, blob, d) := by
  unfold phStep
  rw [h]

theorem phStep_some (placeholders : List (Nat × List Nat)) (idx : Nat) (blob : List Nat)
    (d : List (List Nat × Nat)) (ph : List Nat) (h : assocFindN placeholders idx = some ph) :
    phStep placeholders idx blob d = findOrAppend ph blob d := by
  unfold phStep
  rw [h]

theorem assocFindN_mem (l : List (Nat × List Nat)) (k : Nat) (v : List Nat)
    (h : assocFindN l k = some v) : ∃ p ∈ l, p.2 = v := by
  induction l with
  | nil => exact absurd h (by simp [assocFindN])
  | cons p rest ih =>
    unfold assocFindN at h
    by_cases hk : p.1 = k
    · rw [if_pos hk] at h
      exact ⟨p, List.mem_cons_self p rest, (Option.some.injEq _ _).mp h⟩
    · rw [if_neg hk] at h
      obtain ⟨q, hq, hv⟩ := ih h
      exact ⟨q, List.mem_cons_of_mem p hq, hv⟩

theorem mem_le_phBudget (m : Mst) (p : Nat × List Nat) (hp : p ∈ m.mapPlaceholder) :
    p.2.length + 1 ≤ phBudget m :=
  List.single_le_sum (fun x _ => Nat.zero_le x) _
    (List.mem_map_of_mem (fun q => q.2.length + 1) hp)

theorem getD_append_lt {α : Type} (l1 l2 : List α) (t : Nat) (d : α) (h : t < l1.length) :
    (l1 ++ l2).getD t d = l1.getD t d := by
  rw [List.getD_eq_getElem?_getD, List.getD_eq_getElem?_getD,
    List.getElem?_append_left h]

theorem getD_append_length {α : Type} (l1 : List α) (x : α) (d : α) :
    (l1 ++ [x]).getD l1.length d = x := by
  rw [List.getD_eq_getElem?_getD, List.getElem?_append_right (le_refl _)]
  simp

/-- The entry step written without local bindings, for rewriting. -/
theorem saveEntry_eq (placeholders : List (Nat × List Nat)) (hm : Bool) (idx : Nat)
    (e : List Nat × List Nat) (st : SaveSt) :
    saveEntry placeholders hm idx e st =
      if (nameStep idx e.1 st.vMsgNames st.mapNameDedupe).1 ≠ INVALID_OFFSET ∧
          (textStep hm e.2 st.vMsgText).1 ≠ INVALID_OFFSET then
        Except.ok
          { vOffsetTbl := st.vOffsetTbl ++
              [⟨(nameStep idx e.1 st.vMsgNames st.mapNameDedupe).1,
                (textStep hm e.2 st.vMsgText).1,
                (phStep placeholders idx (nameStep idx e.1 st.vMsgNames st.mapNameDedupe).2.1
                  (nameStep idx e.1 st.vMsgNames st.mapNameDedupe).2.2).1⟩],
            vMsgText := (textStep hm e.2 st.vMsgText).2,
            vMsgNames := (phStep placeholders idx
              (nameStep idx e.1 st.vMsgNames st.mapNameDedupe).2.1
              (nameStep idx e.1 st.vMsgNames st.mapNameDedupe).2.2).2.1,
            vDiffOffTbl := st.vDiffOffTbl ++
              (if (phStep placeholders idx (nameStep idx e.1 st.vMsgNames st.mapNameDedupe).2.1
                    (nameStep idx e.1 st.vMsgNames st.mapNameDedupe).2.2).1 ≠ INVALID_OFFSET
                then [65, 65, 65] else [65, 66]),
            mapNameDedupe := (phStep placeholders idx
              (nameStep idx e.1 st.vMsgNames st.mapNameDedupe).2.1
              (nameStep idx e.1 st.vMsgNames st.mapNameDedupe).2.2).2.2 }
      else Except.error (-5) := rfl

theorem saveEntry_dedupe_inv (m : Mst) (n : List Nat) (idx : Nat)
    (e : List Nat × List Nat) (he0 : (0 : Nat) ∉ e.1)
    (hphnf : ∀ p ∈ m.mapPlaceholder, (0 : Nat) ∉ p.2)
    (processed : List (List Nat × List Nat)) (st st2 : SaveSt) (hm : Bool)
    (hinv : DedupInv m n processed st)
    (hbudget : st.vMsgNames.length + (e.1.length + 1 + phBudget m) < 2 ^ 32)
    (hstep : saveEntry m.mapPlaceholder hm idx e st = Except.ok st2) :
    DedupInv m n (processed ++ [e]) st2 := by
  obtain ⟨L, hNB, hreclen, hblen, hrec, hnone⟩ := hinv
  rw [saveEntry_eq] at hstep
  by_cases he1 : e.1 = []
  · exfalso
    rw [show nameStep idx e.1 st.vMsgNames st.mapNameDedupe =
        (INVALID_OFFSET,
          writeBytes
            (resizeList st.vMsgNames ((INVALID_OFFSET + (xxxMsgName idx).length + 1) % 2 ^ 32))
            INVALID_OFFSET (xxxMsgName idx ++ [0]),
          st.mapNameDedupe) from by rw [nameStep, if_neg (not_not_intro he1)]] at hstep
    simp at hstep
  have hlenA : st.vMsgNames.length < 2 ^ 32 := by omega
  obtain ⟨L1, hNB1, hlenB, hstab1, hself1⟩ :=
    findOrAppend_inv n e.1 L st.vMsgNames st.mapNameDedupe hlenA he0 hNB
  rw [nameStep_ne idx e.1 st.vMsgNames st.mapNameDedupe he1] at hstep
  set nres := findOrAppend e.1 st.vMsgNames st.mapNameDedupe with hnresd
  by_cases hcond : (nres.1 ≠ INVALID_OFFSET ∧
      (textStep hm e.2 st.vMsgText).1 ≠ INVALID_OFFSET)
  swap
  · rw [if_neg hcond] at hstep
    exact absurd hstep (by simp)
  rw [if_pos hcond, Except.ok.injEq] at hstep
  have hfO : st2.vOffsetTbl = st.vOffsetTbl ++
      [⟨nres.1, (textStep hm e.2 st.vMsgText).1,
        (phStep m.mapPlaceholder idx nres.2.1 nres.2.2).1⟩] := by rw [← hstep]
  have hfN : st2.vMsgNames = (phStep m.mapPlaceholder idx nres.2.1 nres.2.2).2.1 := by
    rw [← hstep]
  have hfD : st2.mapNameDedupe = (phStep m.mapPlaceholder idx nres.2.1 nres.2.2).2.2 := by
    rw [← hstep]
  -- the final blob, map, and the two lookup facts, by cases on the placeholder
  have hfinal : ∃ L2, NameBlobInv n L2 st2.vMsgNames st2.mapNameDedupe ∧
      st2.vMsgNames.length ≤ st.vMsgNames.length + (e.1.length + 1 + phBudget m) ∧
      (∀ o, assocFindS nres.2.2 n = some o → assocFindS st2.mapNameDedupe n = some o) := by
    cases hph : assocFindN m.mapPlaceholder idx with
    | none =>
      have h1 : (phStep m.mapPlaceholder idx nres.2.1 nres.2.2).2.1 = nres.2.1 := by
        rw [phStep_none m.mapPlaceholder idx nres.2.1 nres.2.2 hph]
      have h2 : (phStep m.mapPlaceholder idx nres.2.1 nres.2.2).2.2 = nres.2.2 := by
        rw [phStep_none m.mapPlaceholder idx nres.2.1 nres.2.2 hph]
      rw [hfN, hfD, h1, h2]
      exact ⟨L1, hNB1, le_trans hlenB (by omega), fun o ho => ho⟩
    | some ph =>
      have hph0 : (0 : Nat) ∉ ph := by
        obtain ⟨p, hpmem, hpv⟩ := assocFindN_mem m.mapPlaceholder idx ph hph
        exact hpv ▸ hphnf p hpmem
      have hphb : ph.length + 1 ≤ phBudget m := by
        obtain ⟨p, hpmem, hpv⟩ := assocFindN_mem m.mapPlaceholder idx ph hph
        exact hpv ▸ mem_le_phBudget m p hpmem
      have hlenC : nres.2.1.length < 2 ^ 32 := by omega
      obtain ⟨L2, hNB2, hlenD, hstab2, _⟩ :=
        findOrAppend_inv n ph L1 nres.2.1 nres.2.2 hlenC hph0 hNB1
      rw [hfN, hfD, phStep_some m.mapPlaceholder idx nres.2.1 nres.2.2 ph hph]
      refine ⟨L2, hNB2, le_trans hlenD (by omega), hstab2⟩
  obtain ⟨L2, hNB2, hlen2, hstab2⟩ := hfinal
  refine ⟨L2, hNB2, by rw [hfO]; simp [hreclen], ?_, ?_, ?_⟩
  · simp only [List.map_append, List.sum_append, List.map_cons, List.map_nil,
      List.sum_cons, List.sum_nil]
    omega
  · intro o ho t ht hname
    simp only [List.length_append, List.length_cons, List.length_nil] at ht
    by_cases htlt : t < processed.length
    · rw [getD_append_lt processed [e] t ([], []) htlt] at hname
      rw [hfO, getD_append_lt st.vOffsetTbl _ t ⟨0, 0, 0⟩ (by omega)]
      cases hfn : assocFindS st.mapNameDedupe n with
      | some o0 =>
        have hchain := hstab2 o0 (hstab1 o0 hfn)
        rw [hchain] at ho
        have hoo : o0 = o := by simpa using ho
        rw [← hoo]
        exact hrec o0 hfn t htlt hname
      | none =>
        exact absurd hname (hnone hfn t htlt)
    · have hteq : t = processed.length := by omega
      subst hteq
      rw [getD_append_length processed e ([], [])] at hname
      have hchain := hstab2 nres.1 (hself1 hname)
      rw [hchain] at ho
      rw [hfO, ← hreclen, getD_append_length st.vOffsetTbl _ ⟨0, 0, 0⟩]
      exact (Option.some.injEq _ _).mp ho
  · intro hn2 t ht hname
    simp only [List.length_append, List.length_cons, List.length_nil] at ht
    by_cases htlt : t < processed.length
    · rw [getD_append_lt processed [e] t ([], []) htlt] at hname
      cases hfn : assocFindS st.mapNameDedupe n with
      | some o0 => exact absurd hn2 (by rw [hstab2 o0 (hstab1 o0 hfn)]; simp)
      | none => exact hnone hfn t htlt hname
    · have hteq : t = processed.length := by omega
      subst hteq
      rw [getD_append_length processed e ([], [])] at hname
      rw [hstab2 nres.1 (hself1 hname)] at hn2
      exact Option.noConfusion hn2

theorem saveLoop_dedupe_inv (m : Mst) (n : List Nat)
    (hnf : storedNulFree m) (hbound : nameBlobBound m < 2 ^ 32) :
    ∀ (rest processed : List (List Nat × List Nat)) (idx : Nat) (st st2 : SaveSt),
      processed ++ rest = m.vStrTbl →
      DedupInv m n processed st →
      saveLoop m.mapPlaceholder (hostIsBigEndian == m.isBigEndian) idx rest st =
        Except.ok st2 →
      DedupInv m n m.vStrTbl st2 := by
  intro rest
  induction rest with
  | nil =>
    intro processed idx st st2 happ hinv hloop
    rw [List.append_nil] at happ
    subst happ
    rw [saveLoop] at hloop
    rw [(Except.ok.injEq _ _).mp hloop] at hinv
    exact hinv
  | cons e rest2 ih =>
    intro processed idx st st2 happ hinv hloop
    rw [saveLoop] at hloop
    cases hstep : saveEntry m.mapPlaceholder (hostIsBigEndian == m.isBigEndian) idx e st with
    | error c =>
      rw [hstep] at hloop
      exact absurd hloop (by simp)
    | ok stmid =>
      rw [hstep] at hloop
      have he0 : (0 : Nat) ∉ e.1 := by
        refine hnf.2.1 e ?_
        rw [← happ]
        exact List.mem_append_right processed (List.mem_cons_self e rest2)
      have hbudget : st.vMsgNames.length + (e.1.length + 1 + phBudget m) < 2 ^ 32 := by
        obtain ⟨L, _, _, hblen, _, _⟩ := hinv
        have hsum : nameBlobBound m = m.name.length + 19 +
            ((processed.map (fun x => x.1.length + 1 + phBudget m)).sum +
              ((e.1.length + 1 + phBudget m) +
                (rest2.map (fun x => x.1.length + 1 + phBudget m)).sum)) := by
          unfold nameBlobBound
          rw [← happ]
          simp [List.map_append, List.sum_append]
        omega
      refine ih (processed ++ [e]) (idx + 1) stmid st2 ?_ ?_ hloop
      · rw [List.append_assoc]
        exact happ
      · exact saveEntry_dedupe_inv m n idx e he0 hnf.2.2 processed st stmid _ hinv
          hbudget hstep

theorem saveInit_dedupe_inv (m : Mst) (n : List Nat)
    (hnf : storedNulFree m) (hgen : ¬(m.name = [] ∧ n = genericName)) :
    DedupInv m n [] (saveInit m) := by
  unfold saveInit
  by_cases hname : m.name = []
  · rw [if_neg (not_not_intro hname)]
    have hng : n ≠ genericName := fun hn => hgen ⟨hname, hn⟩
    refine ⟨[genericName], ⟨(segJoin_one genericName).symm, ?_, ?_⟩, rfl, ?_, ?_, ?_⟩
    · intro s hs
      rw [List.mem_singleton.mp hs]
      decide
    · show match assocFindS [] n with
        | none => List.count n [genericName] = 0
        | some _ => List.count n [genericName] = 1
      have : (genericName == n) = false := by
        rw [beq_eq_false_iff_ne]
        exact fun h => hng h.symm
      simp [assocFindS, List.count_cons, this]
    · simp [hname, genericName]
    · intro o ho
      exact absurd ho (by simp [assocFindS])
    · intro _ t ht
      simp at ht
  · rw [if_pos hname]
    refine ⟨[m.name], ⟨(segJoin_one m.name).symm, ?_, ?_⟩, rfl, by simp, ?_, ?_⟩
    · intro s hs
      rw [List.mem_singleton.mp hs]
      exact hnf.1
    · show match assocFindS [(m.name, 0)] n with
        | none => List.count n [m.name] = 0
        | some _ => List.count n [m.name] = 1
      by_cases hmn : m.name = n
      · simp [assocFindS, hmn, List.count_cons]
      · have : (m.name == n) = false := by
          rw [beq_eq_false_iff_ne]
          exact hmn
        simp [assocFindS, hmn, List.count_cons, this]
    · intro o _ t ht
      simp at ht
    · intro _ t ht
      simp at ht

theorem segJoin_replicate_nil (k : Nat) :
    segJoin (List.replicate k []) = List.replicate k 0 := by
  induction k with
  | zero => rfl
  | succ k2 ih => simp [List.replicate_succ, segJoin]

theorem splitOn_segJoin (L : List (List Nat)) (hL : ∀ s ∈ L, (0 : Nat) ∉ s) :
    (segJoin L).splitOn 0 = L ++ [[]] := by
  induction L with
  | nil => simp [segJoin]
  | cons s t ih =>
    have hs := hL s (List.mem_cons_self s t)
    have ht : ∀ x ∈ t, (0 : Nat) ∉ x := fun x hx => hL x (List.mem_cons_of_mem s hx)
    have hstep : segJoin (s :: t) = s ++ 0 :: segJoin t := by
      simp [segJoin]
    rw [hstep]
    show (s ++ 0 :: segJoin t).splitOnP (· == 0) = (s :: t) ++ [[]]
    rw [List.splitOnP_first (fun b => b == 0) s
      (fun x hx => by
        simp only [beq_iff_eq]
        exact fun h0 => hs (h0 ▸ hx)) 0 (by simp) (segJoin t)]
    show s :: (segJoin t).splitOn 0 = (s :: t) ++ [[]]
    rw [ih ht]
    rfl

/-- The rebased offset table written by saveFinish. -/
theorem saveFinish_vOffsetTbl (m : Mst) (st : SaveSt) :
    (saveFinish m st).vOffsetTbl = st.vOffsetTbl.map
      (rebasePtr (hostIsBigEndian == m.isBigEndian)
        ((12 + st.vOffsetTbl.length * 12) % 2 ^ 32)
        (((12 + st.vOffsetTbl.length * 12) % 2 ^ 32 + st.vMsgText.length * 2) % 2 ^ 32)) :=
  rfl

/-- The name blob written by saveFinish is the loop blob plus alignment
padding zeros. -/
theorem saveFinish_vMsgNames_pad (m : Mst) (st : SaveSt) :
    ∃ k, (saveFinish m st).vMsgNames = st.vMsgNames ++ List.replicate k 0 := by
  have hchar : (saveFinish m st).vMsgNames =
      (if ((((12 + st.vOffsetTbl.length * 12) % 2 ^ 32 + st.vMsgText.length * 2) % 2 ^ 32 +
            st.vMsgNames.length) % 2 ^ 32) % 4 ≠ 0 then
        st.vMsgNames ++ List.replicate
          (4 - ((((12 + st.vOffsetTbl.length * 12) % 2 ^ 32 + st.vMsgText.length * 2) % 2 ^ 32 +
            st.vMsgNames.length) % 2 ^ 32) % 4) 0
      else st.vMsgNames) := rfl
  rw [hchar]
  split_ifs
  · exact ⟨_, rfl⟩
  · exact ⟨0, by simp⟩

theorem rebasePtr_name_offset (hm : Bool) (tb nb : Nat) (p : WTXT_MsgPointer) :
    (rebasePtr hm tb nb p).name_offset =
      if hm then rebaseField nb p.name_offset
      else swab32 (rebaseField nb p.name_offset) := by
  cases hm <;> simp [rebasePtr]

theorem getD_map_of_lt {α β : Type} (f : α → β) (l : List α) (t : Nat) (h : t < l.length)
    (d : β) (d2 : α) : (l.map f).getD t d = f (l.getD t d2) := by
  simp [List.getD_eq_getElem?_getD, List.getElem?_map, List.getElem?_eq_getElem h]

theorem count_nil_replicate (n : List Nat) (hne : n ≠ []) (k : Nat) :
    List.count n (List.replicate k ([] : List Nat)) = 0 := by
  have h0 : (([] : List Nat) == n) = false := by
    rw [beq_eq_false_iff_ne]
    exact fun h => hne h.symm
  induction k with
  | zero => rfl
  | succ k2 ihk => simp [List.replicate_succ, List.count_cons, h0, ihk]

/-- C4 (amended): for any table whose table name, entry names and
placeholders contain no NUL byte and whose total name data stays below
2^32 bytes, if a non-empty name n, other than the generic fallback of an
unnamed table, names entries i and j, then a successful saveMST gives
both records the same name-offset field and writes exactly one copy of
n into the name blob: splitting the blob on NUL yields exactly one
segment equal to n. -/
theorem c4_name_dedupe (m : Mst) (n : List Nat) (i j : Nat) (out : MstFileOut)
    (hnf : storedNulFree m) (hbound : nameBlobBound m < 2 ^ 32)
    (hne : n ≠ []) (hn0 : (0 : Nat) ∉ n)
    (hgen : ¬(m.name = [] ∧ n = genericName))
    (hi : i < m.vStrTbl.length) (hj : j < m.vStrTbl.length)
    (hni : (m.vStrTbl.getD i ([], [])).1 = n)
    (hnj : (m.vStrTbl.getD j ([], [])).1 = n)
    (hok : saveMST m = Except.ok out) :
    (out.vOffsetTbl.getD i ⟨0, 0, 0⟩).name_offset =
      (out.vOffsetTbl.getD j ⟨0, 0, 0⟩).name_offset ∧
      (out.vMsgNames.splitOn 0).count n = 1 := by
  unfold saveMST at hok
  rw [if_neg (by intro h; rw [h] at hi; simp at hi)] at hok
  cases hloop : saveLoop m.mapPlaceholder (hostIsBigEndian == m.isBigEndian) 0 m.vStrTbl
      (saveInit m) with
  | error c =>
    rw [hloop] at hok
    exact absurd hok (by simp)
  | ok st =>
    rw [hloop, Except.ok.injEq] at hok
    subst hok
    have hinv := saveLoop_dedupe_inv m n hnf hbound m.vStrTbl [] 0 (saveInit m) st
      (by simp) (saveInit_dedupe_inv m n hnf hgen) hloop
    obtain ⟨L, ⟨hblob, hLnf, hcnt⟩, hreclen, hblen, hrec, hnone⟩ := hinv
    cases hfn : assocFindS st.mapNameDedupe n with
    | none => exact absurd hni (hnone hfn i hi)
    | some o =>
      rw [hfn] at hcnt
      constructor
      · rw [saveFinish_vOffsetTbl,
          getD_map_of_lt _ _ i (by omega) _ ⟨0, 0, 0⟩,
          getD_map_of_lt _ _ j (by omega) _ ⟨0, 0, 0⟩,
          rebasePtr_name_offset, rebasePtr_name_offset,
          hrec o hfn i hi hni, hrec o hfn j hj hnj]
      · obtain ⟨k, hpad⟩ := saveFinish_vMsgNames_pad m st
        rw [hpad, hblob]
        have hjoin : segJoin L ++ List.replicate k 0 =
            segJoin (L ++ List.replicate k []) := by
          rw [segJoin_append, segJoin_replicate_nil]
        rw [hjoin, splitOn_segJoin]
        · have h0 : (([] : List Nat) == n) = false := by
            rw [beq_eq_false_iff_ne]
            exact fun h => hne h.symm
          simp [List.count_append, hcnt, count_nil_replicate n hne k,
            List.count_cons, h0]
        · intro s hs
          rcases List.mem_append.mp hs with hs | hs
          · exact hLnf s hs
          · rw [List.eq_of_mem_replicate hs]
            simp

/-- C4 counterexample: the generic fallback table name is stored without
deduplication bookkeeping, so a table with an empty name and two entries
both named mst06_generic_name saves successfully with two copies of that
name string in the name blob. -/
theorem c4_counterexample :
    c4state.vStrTbl.map Prod.fst = [genericName, genericName] ∧
      genericName ≠ [] ∧
      (saveMST c4state).toOption.map
        (fun out => (out.vMsgNames.splitOn 0).count genericName) = some 2 := by
  decide

/-- C4 witness: the amended deduplication theorem applied to the two
entries named A of a concrete table. -/
theorem c4_name_dedupe_witness :
    (storedNulFree c4wstate ∧ nameBlobBound c4wstate < 2 ^ 32 ∧ ([65] : List Nat) ≠ [] ∧
      (0 : Nat) ∉ ([65] : List Nat) ∧ ¬(c4wstate.name = [] ∧ ([65] : List Nat) = genericName) ∧
      0 < c4wstate.vStrTbl.length ∧ 1 < c4wstate.vStrTbl.length ∧
      (c4wstate.vStrTbl.getD 0 ([], [])).1 = [65] ∧
      (c4wstate.vStrTbl.getD 1 ([], [])).1 = [65] ∧
      saveMST c4wstate = Except.ok c4wout) ∧
    ((c4wout.vOffsetTbl.getD 0 ⟨0, 0, 0⟩).name_offset =
      (c4wout.vOffsetTbl.getD 1 ⟨0, 0, 0⟩).name_offset ∧
      (c4wout.vMsgNames.splitOn 0).count [65] = 1) :=
  ⟨⟨by decide, by decide, by decide, by decide, by decide, by decide, by decide,
    by decide, by decide, by rfl⟩,
   c4_name_dedupe c4wstate [65] 0 1 c4wout (by decide) (by decide) (by decide)
     (by decide) (by decide) (by decide) (by decide) (by decide) (by decide) (by rfl)⟩

/-! ### The lookup map after an XML load (C7): erase, growth and
insertion preserve the soundness of every binding -/

theorem assocFindS_erase (l : List (List Nat × Nat)) (k key : List Nat) :
    assocFindS (assocEraseS l k) key =
      if key = k then none else assocFindS l key := by
  induction l with
  | nil => simp [assocEraseS, assocFindS]
  | cons p rest ih =>
    by_cases hp : p.1 = k
    · simp only [assocEraseS, if_pos hp, ih]
      by_cases hk : key = k
      · rw [if_pos hk, if_pos hk]
      · have hpk : ¬ p.1 = key := fun h2 => hk (h2 ▸ hp)
        rw [if_neg hk, if_neg hk]
        simp only [assocFindS, if_neg hpk]
    · by_cases hpk : p.1 = key
      · have hk : ¬ key = k := fun h2 => hp (hpk.trans h2)
        simp only [assocEraseS, if_neg hp, assocFindS, if_pos hpk, if_neg hk]
      · simp only [assocEraseS, if_neg hp, assocFindS, if_neg hpk, ih]

theorem xmlDupErase_find (index : Nat) (m : Mst) (k : List Nat) (i : Nat)
    (h : assocFindS (xmlDupErase index m) k = some i) :
    assocFindS m.vStrLkup k = some i ∧
      (index < m.vStrTbl.length ∧ (m.vStrTbl.getD index ([], [])).1 ≠ [] →
        k ≠ (m.vStrTbl.getD index ([], [])).1) := by
  unfold xmlDupErase at h
  by_cases hc : index < m.vStrTbl.length ∧ (m.vStrTbl.getD index ([], [])).1 ≠ []
  · rw [if_pos hc, assocFindS_erase] at h
    by_cases hk : k = (m.vStrTbl.getD index ([], [])).1
    · rw [if_pos hk] at h
      exact absurd h (by simp)
    · rw [if_neg hk] at h
      exact ⟨h, fun _ => hk⟩
  · rw [if_neg hc] at h
    exact ⟨h, fun hcc => absurd hcc hc⟩

theorem getD_set_self {α : Type} (l : List α) (i : Nat) (v d : α)
    (h : i < l.length) : (l.set i v).getD i d = v := by
  simp [List.getD_eq_getElem?_getD, List.getElem?_set_self, h]

theorem getD_set_ne {α : Type} (l : List α) (i j : Nat) (v d : α)
    (h : j ≠ i) : (l.set i v).getD j d = l.getD j d := by
  simp [List.getD_eq_getElem?_getD, List.getElem?_set_ne (fun hh => h hh.symm)]

theorem xmlGrowTbl_le_length (index : Nat) (tbl : List (List Nat × List Nat)) :
    tbl.length ≤ (xmlGrowTbl index tbl).length := by
  unfold xmlGrowTbl
  by_cases hc : tbl.length ≤ index
  · rw [if_pos hc]
    simp only [List.length_append, List.length_replicate]
    omega
  · rw [if_neg hc]

theorem xmlGrowTbl_index_lt (index : Nat) (tbl : List (List Nat × List Nat)) :
    index < (xmlGrowTbl index tbl).length := by
  unfold xmlGrowTbl
  by_cases hc : tbl.length ≤ index
  · rw [if_pos hc]
    simp only [List.length_append, List.length_replicate]
    omega
  · rw [if_neg hc]
    omega

theorem xmlGrowTbl_getD_lt (index : Nat) (tbl : List (List Nat × List Nat))
    (j : Nat) (h : j < tbl.length) (d : List Nat × List Nat) :
    (xmlGrowTbl index tbl).getD j d = tbl.getD j d := by
  unfold xmlGrowTbl
  by_cases hc : tbl.length ≤ index
  · rw [if_pos hc]
    exact getD_append_lt tbl _ j d h
  · rw [if_neg hc]

theorem xmlStoreMsg_vStrTbl (index : Nat) (nm txt : List Nat)
    (ph : Option (List Nat)) (m : Mst) :
    (xmlStoreMsg index nm txt ph m).vStrTbl =
      (xmlGrowTbl index m.vStrTbl).set index
        (nm, unescape (utf8_to_utf16 txt)) := rfl

theorem xmlStoreMsg_vStrLkup (index : Nat) (nm txt : List Nat)
    (ph : Option (List Nat)) (m : Mst) :
    (xmlStoreMsg index nm txt ph m).vStrLkup =
      assocInsertS (xmlDupErase index m) nm index := rfl

theorem assocFindS_insert (l : List (List Nat × Nat)) (nm : List Nat) (v : Nat)
    (key : List Nat) (i : Nat)
    (h : assocFindS (assocInsertS l nm v) key = some i) :
    assocFindS l key = some i ∨ (nm = key ∧ v = i) := by
  cases hfd : assocFindS l nm with
  | some x =>
    have he : assocInsertS l nm v = l := by unfold assocInsertS; rw [hfd]
    rw [he] at h
    exact Or.inl h
  | none =>
    have he : assocInsertS l nm v = l ++ [(nm, v)] := by
      unfold assocInsertS; rw [hfd]
    rw [he, assocFindS_append_one] at h
    cases hk : assocFindS l key with
    | some x2 =>
      rw [hk] at h
      simp only [] at h
      exact Or.inl h
    | none =>
      rw [hk] at h
      simp only [] at h
      by_cases hnk : nm = key
      · rw [if_pos hnk] at h
        exact Or.inr ⟨hnk, by injection h⟩
      · rw [if_neg hnk] at h
        exact Or.inl h

theorem xmlStoreMsg_consistent (index : Nat) (b : Nat) (t txt : List Nat)
    (ph : Option (List Nat)) (m : Mst)
    (hinv : ∀ k i, assocFindS m.vStrLkup k = some i →
      k ≠ [] ∧ i < m.vStrTbl.length ∧ (m.vStrTbl.getD i ([], [])).1 = k) :
    ∀ k i, assocFindS (xmlStoreMsg index (b :: t) txt ph m).vStrLkup k = some i →
      k ≠ [] ∧ i < (xmlStoreMsg index (b :: t) txt ph m).vStrTbl.length ∧
        ((xmlStoreMsg index (b :: t) txt ph m).vStrTbl.getD i ([], [])).1 = k := by
  intro k i hfind
  rw [xmlStoreMsg_vStrLkup] at hfind
  rw [xmlStoreMsg_vStrTbl, List.length_set]
  rcases assocFindS_insert _ _ _ _ _ hfind with hE | ⟨hbk, hvi⟩
  · obtain ⟨hm, hdup⟩ := xmlDupErase_find index m k i hE
    obtain ⟨hk_ne, hi_lt, hname⟩ := hinv k i hm
    have hine : i ≠ index := by
      intro he
      subst he
      exact hdup ⟨hi_lt, by rw [hname]; exact hk_ne⟩ hname.symm
    refine ⟨hk_ne, lt_of_lt_of_le hi_lt (xmlGrowTbl_le_length index m.vStrTbl), ?_⟩
    rw [getD_set_ne _ index i _ _ hine, xmlGrowTbl_getD_lt index m.vStrTbl i hi_lt]
    exact hname
  · subst hbk
    subst hvi
    refine ⟨by simp, xmlGrowTbl_index_lt index m.vStrTbl, ?_⟩
    rw [getD_set_self _ index _ _ (xmlGrowTbl_index_lt index m.vStrTbl)]

theorem loadXML_messages_consistent (msgs : List XmlInMsg) :
    ∀ m : Mst,
      (∀ k i, assocFindS m.vStrLkup k = some i →
        k ≠ [] ∧ i < m.vStrTbl.length ∧ (m.vStrTbl.getD i ([], [])).1 = k) →
      ∀ k i, assocFindS (loadXML_messages msgs m).vStrLkup k = some i →
        k ≠ [] ∧ i < (loadXML_messages msgs m).vStrTbl.length ∧
          ((loadXML_messages msgs m).vStrTbl.getD i ([], [])).1 = k := by
  induction msgs with
  | nil => intro m hinv; exact hinv
  | cons msg rest ih =>
    intro m hinv
    obtain ⟨idx, nme, txt, ph⟩ := msg
    cases idx with
    | none => exact ih m hinv
    | some index =>
      cases nme with
      | none => exact ih m hinv
      | some nm =>
        cases nm with
        | nil => exact ih m hinv
        | cons b t =>
          exact ih (xmlStoreMsg index (b :: t) (txt.getD []) ph m)
            (xmlStoreMsg_consistent index b t (txt.getD []) ph m hinv)

theorem xmlHeaderSt_vStrTbl (doc : XmlInDoc) : (xmlHeaderSt doc).vStrTbl = [] := rfl

theorem xmlHeaderSt_vStrLkup (doc : XmlInDoc) : (xmlHeaderSt doc).vStrLkup = [] := rfl

theorem loadXML_lkup_sound (doc : XmlInDoc) :
    ∀ key i, assocFindS (loadXML doc).2.vStrLkup key = some i →
      key ≠ [] ∧ i < (loadXML doc).2.vStrTbl.length ∧
        ((loadXML doc).2.vStrTbl.getD i ([], [])).1 = key := by
  obtain ⟨dn, dv, de, dmsgs⟩ := doc
  cases dn with
  | none =>
    intro key i h
    simp [loadXML, xmlHeaderSt, clearedMst, assocFindS] at h
  | some nm =>
    cases nm with
    | nil =>
      intro key i h
      simp [loadXML, xmlHeaderSt, clearedMst, assocFindS] at h
    | cons b t =>
      cases dmsgs with
      | nil =>
        intro key i h
        simp [loadXML, xmlHeaderSt, clearedMst, assocFindS] at h
      | cons mh mt =>
        intro key i h
        refine loadXML_messages_consistent (mh :: mt)
          { xmlHeaderSt ⟨some (b :: t), dv, de, mh :: mt⟩ with name := b :: t }
          ?_ key i h
        intro k2 j hk2
        simp [xmlHeaderSt, clearedMst, assocFindS] at hk2

/-- C7 (amended): after a binary load the lookup map sends every name
to the index of the first entry bearing it, because
std::unordered_map::insert keeps the existing binding, so a name shared
by several entries maps to the first-written one, not the last; after
an XML load the duplicate-index replacement path can additionally erase
a binding outright, and what always holds is that every binding sends a
non-empty name to an in-range entry that currently bears exactly that
name. -/
theorem c7_lookup_after_load :
    (∀ bytes key, assocFindS (loadMST bytes).2.vStrLkup key =
        firstIdxWithName (loadMST bytes).2.vStrTbl key) ∧
    (∀ doc key i, assocFindS (loadXML doc).2.vStrLkup key = some i →
        key ≠ [] ∧ i < (loadXML doc).2.vStrTbl.length ∧
          ((loadXML doc).2.vStrTbl.getD i ([], [])).1 = key) :=
  ⟨fun bytes key => loadMST_lkup_first bytes key,
   fun doc key i h => loadXML_lkup_sound doc key i h⟩

/-- Closed instance of the C7 theorem at the two-record binary file and
a one-message XML document, with the hypothesis discharged by
computation. -/
theorem c7_lookup_after_load_witness :
    (assocFindS (loadMST c7file).2.vStrLkup [65] =
        firstIdxWithName (loadMST c7file).2.vStrTbl [65]) ∧
    (([65] : List Nat) ≠ [] ∧ 0 < (loadXML c7doc).2.vStrTbl.length ∧
      ((loadXML c7doc).2.vStrTbl.getD 0 ([], [])).1 = [65]) :=
  ⟨c7_lookup_after_load.1 c7file [65],
   c7_lookup_after_load.2 c7doc [65] 0 (by decide)⟩

end Mst06
